import Mathlib

/-!
# Verification of the KiddanApp answer-evaluation pipeline

Shallow embedding of `app/evaluation_pipeline.py` (class `EvaluationPipeline`)
and of the slice of `app/services/simplified_lesson_service.py`
(`SimplifiedLessonService.validate_answer`) that the claims refer to.

Strings are modelled as `List Char` (`Str`).  Python `float` arithmetic is
modelled by `ℚ`: every score in the pipeline is of the form
`0.6 * (2*M/T) + 0.4 * (i/u)` with small integer numerators and denominators,
and all comparisons against the threshold table are far from the
double-precision rounding error of these values, so the branch decisions of
the rational model coincide with the float code.

Python's Unicode tables (for `str.lower`, `str.upper`, the regex class `\w`
and `str.isspace`) are modelled faithfully on the character set the theorems
touch: ASCII, the block U+0A80–U+0AFF kept by the regex in
`normalize_text`, and U+0130 (LATIN CAPITAL LETTER I WITH DOT ABOVE), whose
CPython lowercase is the two-character sequence "i" + U+0307 (COMBINING DOT
ABOVE, SpecialCasing.txt).  Other code points are modelled as caseless
non-word characters.
-/

abbrev Str := List Char

/-- shorthand for writing `List Char` literals. -/
def str (s : String) : Str := s.data

/-- `c` at index `i`, with an arbitrary default out of range (Python indexing
in the modelled code never goes out of range). -/
def charAt (l : Str) (i : Nat) : Char := l.getD i (Char.ofNat 0)

/-- Python `str.isspace` / regex `\s`, on the ASCII range (the only
whitespace the modelled inputs contain). -/
def pyIsSpace (c : Char) : Bool :=
  c = ' ' || c = '\t' || c = '\n' || c = '\x0b' || c = '\x0c' || c = '\r'

/-- Python regex `\w` (word character): ASCII alphanumerics, underscore, and
U+0130; see the header for the modelled Unicode domain. -/
def pyIsWordChar (c : Char) : Bool :=
  c.isAlphanum || c = '_' || c.toNat = 0x130

/-- CPython `str.lower` of one character, as a (possibly multi-character)
string: ASCII letters map down by 32; U+0130 maps to "i" + U+0307
(CPython special casing); everything else in the modelled domain is
caseless. -/
def pyCharLower (c : Char) : Str :=
  if c.toNat = 0x130 then [Char.ofNat 0x69, Char.ofNat 0x307]
  else if 'A' ≤ c ∧ c ≤ 'Z' then [Char.ofNat (c.toNat + 32)]
  else [c]

/-- Python `str.lower`. -/
def pyLower (l : Str) : Str := l.flatMap pyCharLower

/-- Python `str.upper` of one character (ASCII; the parsed AI classification
is compared against ASCII state names only). -/
def pyUpperChar (c : Char) : Char :=
  if 'a' ≤ c ∧ c ≤ 'z' then Char.ofNat (c.toNat - 32) else c

/-- Python `str.upper`. -/
def pyUpper (l : Str) : Str := l.map pyUpperChar

/-- Python `str.strip()`: drop whitespace from both ends. -/
def pyStrip (l : Str) : Str :=
  ((l.dropWhile pyIsSpace).reverse.dropWhile pyIsSpace).reverse

/-- Accumulator-based worker for Python `str.split()`: `acc` is the reversed
current word. -/
def pySplitAux : Str → Str → List Str
  | [], acc => if acc = [] then [] else [acc.reverse]
  | c :: rest, acc =>
    if pyIsSpace c then
      if acc = [] then pySplitAux rest []
      else acc.reverse :: pySplitAux rest []
    else pySplitAux rest (c :: acc)

/-- Python `str.split()` with no argument: split on whitespace runs,
discarding empty pieces. -/
def pySplit (l : Str) : List Str := pySplitAux l []

/-- Python `' '.join(ws)`. -/
def joinSp : List Str → Str
  | [] => []
  | [w] => w
  | w :: ws => w ++ ' ' :: joinSp ws

/-- The character class kept by `re.sub(r'[^\w\s઀-૿]', '', text)`:
word characters, whitespace, and the block U+0A80–U+0AFF. -/
def keepChar (c : Char) : Bool :=
  pyIsWordChar c || pyIsSpace c || (decide (0xA80 ≤ c.toNat) && decide (c.toNat ≤ 0xAFF))

/-- The `re.sub` call of `normalize_text`: delete every character outside
`keepChar`. -/
def removePunct (l : Str) : Str := l.filter keepChar

/-- `EvaluationPipeline.normalize_text`: remove punctuation, collapse
whitespace runs to single spaces, lowercase, strip. -/
def normalize_text (t : Str) : Str :=
  if t = [] then []
  else pyStrip (pyLower (joinSp (pySplit (removePunct t))))

/-! ## difflib.SequenceMatcher

`EvaluationPipeline.sequence_similarity` calls
`difflib.SequenceMatcher(None, str1, str2).ratio()`.  The matcher is
embedded below: `b2j` with the autojunk rule (elements of `b` occurring more
than `len(b)//100 + 1` times are dropped from `b2j` when `len(b) >= 200`),
`find_longest_match` (the `j2len` dynamic program followed by the two
non-junk extension loops; the two junk extension loops never fire because no
junk predicate is passed, so `bjunk` is empty and they are omitted), the
recursive block decomposition of `get_matching_blocks` (represented as a
tree recursion producing the same multiset of blocks as the queue loop), and
`ratio = 2*M / (len(a)+len(b))` with the `T = 0 → 1.0` special case. -/

/-- Ascending list of positions of `c` in `b` (one `b2j` entry before the
autojunk purge). -/
def positions (b : Str) (c : Char) : List Nat :=
  (List.range b.length).filter (fun j => charAt b j = c)

/-- The autojunk popularity rule of `SequenceMatcher.__chain_b`. -/
def isPopular (b : Str) (c : Char) : Bool :=
  decide (200 ≤ b.length) && decide (b.length / 100 + 1 < (positions b c).length)

/-- `b2j.get(c, [])` after the autojunk purge. -/
def b2jGet (b : Str) (c : Char) : List Nat :=
  if isPopular b c then [] else positions b c

/-- A matching block `(i, j, size)` as returned by `find_longest_match`. -/
structure Best where
  i : Nat
  j : Nat
  size : Nat
deriving DecidableEq

/-- The `j` values the inner loop of `find_longest_match` actually
processes: `continue` on `j < blo`, `break` (on an ascending list) at the
first `j ≥ bhi`. -/
def innerJs (b : Str) (c : Char) (blo bhi : Nat) : List Nat :=
  ((b2jGet b c).filter (fun j => decide (blo ≤ j))).takeWhile (fun j => decide (j < bhi))

/-- One iteration of the inner loop of `find_longest_match`:
`k = newj2len[j] = j2len.get(j-1, 0) + 1`, and the best block is replaced
when `k > bestsize`.  `oldJ` is the `j2len` of the previous outer
iteration, the state is `(newj2len, best)`. -/
def innerStep (i : Nat) (oldJ : Nat → Nat) (st : (Nat → Nat) × Best) (j : Nat) :
    (Nat → Nat) × Best :=
  let k := (if j = 0 then 0 else oldJ (j - 1)) + 1
  (fun x => if x = j then k else st.1 x,
   if st.2.size < k then ⟨i + 1 - k, j + 1 - k, k⟩ else st.2)

/-- One iteration of the outer loop of `find_longest_match`: run the inner
loop over `b2j.get(a[i], [])` starting from a fresh `newj2len = {}`. -/
def outerStep (a b : Str) (blo bhi : Nat) (st : (Nat → Nat) × Best) (i : Nat) :
    (Nat → Nat) × Best :=
  (innerJs b (charAt a i) blo bhi).foldl (innerStep i st.1) ((fun _ => 0), st.2)

/-- First extension loop (leftwards over equal elements; `bjunk` is empty,
so the junk test `not isbjunk(...)` is vacuously true). -/
def extendLeft (a b : Str) (alo blo : Nat) (x : Best) : Best :=
  if alo < x.i ∧ blo < x.j ∧ charAt a (x.i - 1) = charAt b (x.j - 1) then
    extendLeft a b alo blo ⟨x.i - 1, x.j - 1, x.size + 1⟩
  else x
termination_by x.i
decreasing_by
  rename_i h
  omega

/-- Second extension loop (rightwards over equal elements). -/
def extendRight (a b : Str) (ahi bhi : Nat) (x : Best) : Best :=
  if x.i + x.size < ahi ∧ x.j + x.size < bhi ∧
      charAt a (x.i + x.size) = charAt b (x.j + x.size) then
    extendRight a b ahi bhi ⟨x.i, x.j, x.size + 1⟩
  else x
termination_by ahi - (x.i + x.size)
decreasing_by
  rename_i h
  omega

/-- `SequenceMatcher.find_longest_match(alo, ahi, blo, bhi)`. -/
def findLongestMatch (a b : Str) (alo ahi blo bhi : Nat) : Best :=
  let st := (List.range' alo (ahi - alo)).foldl (outerStep a b blo bhi)
    ((fun _ => 0), ⟨alo, blo, 0⟩)
  extendRight a b ahi bhi (extendLeft a b alo blo st.2)

/-- Every `j` the inner loop processes lies in `[blo, bhi)`. -/
theorem mem_innerJs {b : Str} {c : Char} {blo bhi j : Nat}
    (h : j ∈ innerJs b c blo bhi) : blo ≤ j ∧ j < bhi := by
  have h1 : blo ≤ j := by
    have hsub : (((b2jGet b c).filter (fun j => decide (blo ≤ j))).takeWhile
        (fun j => decide (j < bhi))).Sublist
        ((b2jGet b c).filter (fun j => decide (blo ≤ j))) :=
      List.takeWhile_sublist _
    have := hsub.subset h
    have := List.of_mem_filter this
    simpa using this
  have h2 : j < bhi := by
    have := List.mem_takeWhile_imp h
    simpa using this
  exact ⟨h1, h2⟩

/-- The result of one inner iteration, first component. -/
theorem innerStep_fst (i : Nat) (oldJ : Nat → Nat) (st : (Nat → Nat) × Best) (j x : Nat) :
    (innerStep i oldJ st j).1 x =
      if x = j then (if j = 0 then 0 else oldJ (j - 1)) + 1 else st.1 x := rfl

/-- The result of one inner iteration, second component. -/
theorem innerStep_snd (i : Nat) (oldJ : Nat → Nat) (st : (Nat → Nat) × Best) (j : Nat) :
    (innerStep i oldJ st j).2 =
      if st.2.size < (if j = 0 then 0 else oldJ (j - 1)) + 1 then
        ⟨i + 1 - ((if j = 0 then 0 else oldJ (j - 1)) + 1),
         j + 1 - ((if j = 0 then 0 else oldJ (j - 1)) + 1),
         (if j = 0 then 0 else oldJ (j - 1)) + 1⟩
      else st.2 := rfl

/-- Range and state bounds preserved by the inner loop of
`find_longest_match`. -/
theorem innerFold_bounds {alo blo bhi : Nat} (i : Nat) (oldJ : Nat → Nat)
    (hOa : ∀ x, oldJ x + alo ≤ i) (hOb : ∀ x, oldJ x ≠ 0 → oldJ x + blo ≤ x + 1) :
    ∀ (js : List Nat) (st : (Nat → Nat) × Best),
    (∀ j ∈ js, blo ≤ j ∧ j < bhi) →
    (∀ x, st.1 x + alo ≤ i + 1) → (∀ x, st.1 x ≠ 0 → st.1 x + blo ≤ x + 1) →
    alo ≤ st.2.i → blo ≤ st.2.j →
    (st.2.size ≠ 0 → st.2.i + st.2.size ≤ i + 1 ∧ st.2.j + st.2.size ≤ bhi) →
    (st.2.size = 0 → st.2.i = alo ∧ st.2.j = blo) →
    ((∀ x, (js.foldl (innerStep i oldJ) st).1 x + alo ≤ i + 1) ∧
     (∀ x, (js.foldl (innerStep i oldJ) st).1 x ≠ 0 →
       (js.foldl (innerStep i oldJ) st).1 x + blo ≤ x + 1) ∧
     alo ≤ (js.foldl (innerStep i oldJ) st).2.i ∧
     blo ≤ (js.foldl (innerStep i oldJ) st).2.j ∧
     ((js.foldl (innerStep i oldJ) st).2.size ≠ 0 →
       (js.foldl (innerStep i oldJ) st).2.i + (js.foldl (innerStep i oldJ) st).2.size ≤ i + 1 ∧
       (js.foldl (innerStep i oldJ) st).2.j + (js.foldl (innerStep i oldJ) st).2.size ≤ bhi) ∧
     ((js.foldl (innerStep i oldJ) st).2.size = 0 →
       (js.foldl (innerStep i oldJ) st).2.i = alo ∧ (js.foldl (innerStep i oldJ) st).2.j = blo)) := by
  intro js
  induction js with
  | nil =>
    intro st hjs h1 h2 h3 h4 h5 h6
    exact ⟨h1, h2, h3, h4, h5, h6⟩
  | cons j rest ih =>
    intro st hjs h1 h2 h3 h4 h5 h6
    obtain ⟨hjb, hjh⟩ := hjs j (List.mem_cons_self j rest)
    simp only [List.foldl_cons]
    set k : Nat := (if j = 0 then 0 else oldJ (j - 1)) + 1 with hkdef
    have hk1 : k + alo ≤ i + 1 := by
      rw [hkdef]
      split
      · have := hOa 0; omega
      · have := hOa (j - 1); omega
    have hk2 : k + blo ≤ j + 1 := by
      rw [hkdef]
      split
      · rename_i hj0; omega
      · by_cases hz : oldJ (j - 1) = 0
        · rw [hz]; omega
        · have := hOb (j - 1) hz; omega
    have hsnd : (innerStep i oldJ st j).2 =
        if st.2.size < k then ⟨i + 1 - k, j + 1 - k, k⟩ else st.2 := by
      rw [innerStep_snd, ← hkdef]
    apply ih _ (fun j' hj' => hjs j' (List.mem_cons_of_mem _ hj'))
    · intro x
      rw [innerStep_fst, ← hkdef]
      split
      · exact hk1
      · exact h1 x
    · intro x
      rw [innerStep_fst, ← hkdef]
      split
      · rename_i hxj; subst hxj; intro _; exact hk2
      · exact h2 x
    · rw [hsnd]
      by_cases hc : st.2.size < k
      · rw [if_pos hc]; dsimp only; omega
      · rw [if_neg hc]; exact h3
    · rw [hsnd]
      by_cases hc : st.2.size < k
      · rw [if_pos hc]; dsimp only; omega
      · rw [if_neg hc]; exact h4
    · rw [hsnd]
      by_cases hc : st.2.size < k
      · rw [if_pos hc]; dsimp only; intro _; omega
      · rw [if_neg hc]; exact h5
    · rw [hsnd]
      by_cases hc : st.2.size < k
      · rw [if_pos hc]; dsimp only; intro hz; omega
      · rw [if_neg hc]; exact h6

/-- Range and state bounds preserved by the outer loop of
`find_longest_match`. -/
theorem foldOuter_bounds (a b : Str) (alo blo bhi : Nat) :
    ∀ (len start : Nat) (st : (Nat → Nat) × Best),
    (∀ x, st.1 x + alo ≤ start) → (∀ x, st.1 x ≠ 0 → st.1 x + blo ≤ x + 1) →
    alo ≤ st.2.i → blo ≤ st.2.j →
    (st.2.size ≠ 0 → st.2.i + st.2.size ≤ start ∧ st.2.j + st.2.size ≤ bhi) →
    (st.2.size = 0 → st.2.i = alo ∧ st.2.j = blo) →
    (alo ≤ ((List.range' start len).foldl (outerStep a b blo bhi) st).2.i ∧
     blo ≤ ((List.range' start len).foldl (outerStep a b blo bhi) st).2.j ∧
     (((List.range' start len).foldl (outerStep a b blo bhi) st).2.size ≠ 0 →
       ((List.range' start len).foldl (outerStep a b blo bhi) st).2.i +
         ((List.range' start len).foldl (outerStep a b blo bhi) st).2.size ≤ start + len ∧
       ((List.range' start len).foldl (outerStep a b blo bhi) st).2.j +
         ((List.range' start len).foldl (outerStep a b blo bhi) st).2.size ≤ bhi) ∧
     (((List.range' start len).foldl (outerStep a b blo bhi) st).2.size = 0 →
       ((List.range' start len).foldl (outerStep a b blo bhi) st).2.i = alo ∧
       ((List.range' start len).foldl (outerStep a b blo bhi) st).2.j = blo)) := by
  intro len
  induction len with
  | zero =>
    intro start st h1 h2 h3 h4 h5 h6
    simp only [List.range', List.foldl_nil]
    exact ⟨h3, h4, by simpa using h5, h6⟩
  | succ n ih =>
    intro start st h1 h2 h3 h4 h5 h6
    rw [List.range'_succ, List.foldl_cons]
    have hstep := @innerFold_bounds alo blo bhi start st.1
      h1 h2 (innerJs b (charAt a start) blo bhi) ((fun _ => 0), st.2)
      (fun j hj => mem_innerJs hj)
      (by intro x; dsimp only; have := h1 x; omega)
      (by intro x hx; exact absurd rfl hx)
      h3 h4
      (by dsimp only; intro hz; have := h5 hz; omega)
      h6
    have hres := ih (start + 1) (outerStep a b blo bhi st start)
      (by intro x; exact hstep.1 x)
      (by intro x; exact hstep.2.1 x)
      hstep.2.2.1 hstep.2.2.2.1
      (by intro hz; exact hstep.2.2.2.2.1 hz)
      hstep.2.2.2.2.2
    refine ⟨hres.1, hres.2.1, ?_, hres.2.2.2⟩
    intro hz
    have := hres.2.2.1 hz
    omega

/-- `extendLeft` preserves the range bounds. -/
theorem extendLeft_bounds (a b : Str) (alo blo ahi bhi : Nat) (x : Best)
    (h1 : alo ≤ x.i) (h2 : blo ≤ x.j)
    (h3 : x.size ≠ 0 → x.i + x.size ≤ ahi ∧ x.j + x.size ≤ bhi)
    (h4 : x.size = 0 → x.i = alo ∧ x.j = blo) :
    alo ≤ (extendLeft a b alo blo x).i ∧ blo ≤ (extendLeft a b alo blo x).j ∧
    ((extendLeft a b alo blo x).size ≠ 0 →
      (extendLeft a b alo blo x).i + (extendLeft a b alo blo x).size ≤ ahi ∧
      (extendLeft a b alo blo x).j + (extendLeft a b alo blo x).size ≤ bhi) ∧
    ((extendLeft a b alo blo x).size = 0 →
      (extendLeft a b alo blo x).i = alo ∧ (extendLeft a b alo blo x).j = blo) := by
  induction x using extendLeft.induct a b alo blo with
  | case1 x hcond ih =>
    rw [extendLeft, if_pos hcond]
    apply ih
    · dsimp only; omega
    · dsimp only; omega
    · dsimp only
      intro _
      rcases Nat.eq_zero_or_pos x.size with hz | hp
      · have := h4 hz; omega
      · have := h3 (by omega); omega
    · dsimp only; omega
  | case2 x hcond =>
    rw [extendLeft, if_neg hcond]
    exact ⟨h1, h2, h3, h4⟩

/-- `extendRight` preserves the range bounds. -/
theorem extendRight_bounds (a b : Str) (alo blo ahi bhi : Nat) (x : Best)
    (h1 : alo ≤ x.i) (h2 : blo ≤ x.j)
    (h3 : x.size ≠ 0 → x.i + x.size ≤ ahi ∧ x.j + x.size ≤ bhi)
    (h4 : x.size = 0 → x.i = alo ∧ x.j = blo) :
    alo ≤ (extendRight a b ahi bhi x).i ∧ blo ≤ (extendRight a b ahi bhi x).j ∧
    ((extendRight a b ahi bhi x).size ≠ 0 →
      (extendRight a b ahi bhi x).i + (extendRight a b ahi bhi x).size ≤ ahi ∧
      (extendRight a b ahi bhi x).j + (extendRight a b ahi bhi x).size ≤ bhi) ∧
    ((extendRight a b ahi bhi x).size = 0 →
      (extendRight a b ahi bhi x).i = alo ∧ (extendRight a b ahi bhi x).j = blo) := by
  induction x using extendRight.induct a b ahi bhi with
  | case1 x hcond ih =>
    rw [extendRight, if_pos hcond]
    apply ih
    · dsimp only; omega
    · dsimp only; omega
    · dsimp only
      intro _
      omega
    · dsimp only; omega
  | case2 x hcond =>
    rw [extendRight, if_neg hcond]
    exact ⟨h1, h2, h3, h4⟩

/-- The block returned by `find_longest_match` lies inside the requested
ranges. -/
theorem flm_bounds (a b : Str) (alo ahi blo bhi : Nat) :
    alo ≤ (findLongestMatch a b alo ahi blo bhi).i ∧
    blo ≤ (findLongestMatch a b alo ahi blo bhi).j ∧
    ((findLongestMatch a b alo ahi blo bhi).size ≠ 0 →
      (findLongestMatch a b alo ahi blo bhi).i + (findLongestMatch a b alo ahi blo bhi).size ≤ ahi ∧
      (findLongestMatch a b alo ahi blo bhi).j + (findLongestMatch a b alo ahi blo bhi).size ≤ bhi) := by
  have hfold := foldOuter_bounds a b alo blo bhi (ahi - alo) alo
    ((fun _ => 0), ⟨alo, blo, 0⟩)
    (by intro x; dsimp only; omega)
    (by intro x hx; exact absurd rfl hx)
    (Nat.le_refl _) (Nat.le_refl _)
    (by intro hz; exact absurd rfl hz)
    (by intro _; exact ⟨rfl, rfl⟩)
  have hL := extendLeft_bounds a b alo blo ahi bhi _ hfold.1 hfold.2.1
    (by intro hz; have := hfold.2.2.1 hz; omega) hfold.2.2.2
  have hR := extendRight_bounds a b alo blo ahi bhi _ hL.1 hL.2.1 hL.2.2.1 hL.2.2.2
  rw [findLongestMatch]
  exact ⟨hR.1, hR.2.1, hR.2.2.1⟩

/-- The nonzero blocks produced by `get_matching_blocks` (the LIFO queue of
the Python loop visits the same sub-ranges as this tree recursion; only the
multiset of blocks — in fact only the sum of their sizes — is used by
`ratio`).  The final `(la, lb, 0)` terminator and the adjacent-block merge
are dropped: neither changes the size sum. -/
def matchingBlocks (a b : Str) (alo ahi blo bhi : Nat) : List Best :=
  if hm : (findLongestMatch a b alo ahi blo bhi).size = 0 then []
  else
    (if alo < (findLongestMatch a b alo ahi blo bhi).i ∧
        blo < (findLongestMatch a b alo ahi blo bhi).j then
      matchingBlocks a b alo (findLongestMatch a b alo ahi blo bhi).i
        blo (findLongestMatch a b alo ahi blo bhi).j
    else []) ++
    findLongestMatch a b alo ahi blo bhi ::
    (if (findLongestMatch a b alo ahi blo bhi).i + (findLongestMatch a b alo ahi blo bhi).size < ahi ∧
        (findLongestMatch a b alo ahi blo bhi).j + (findLongestMatch a b alo ahi blo bhi).size < bhi then
      matchingBlocks a b
        ((findLongestMatch a b alo ahi blo bhi).i + (findLongestMatch a b alo ahi blo bhi).size) ahi
        ((findLongestMatch a b alo ahi blo bhi).j + (findLongestMatch a b alo ahi blo bhi).size) bhi
    else [])
termination_by ahi - alo
decreasing_by
  · have hb := flm_bounds a b alo ahi blo bhi
    have := hb.2.2 hm
    rename_i hcond
    omega
  · have hb := flm_bounds a b alo ahi blo bhi
    have := hb.2.2 hm
    omega

/-- `matches = sum(triple[-1] for triple in self.get_matching_blocks())`. -/
def totalMatched (a b : Str) : Nat :=
  ((matchingBlocks a b 0 a.length 0 b.length).map Best.size).sum

/-- `SequenceMatcher.ratio()` = `_calculate_ratio(matches, len(a)+len(b))`:
`2*M/T`, and `1.0` when `T = 0`. -/
def ratio (a b : Str) : ℚ :=
  if a.length + b.length = 0 then 1
  else (2 * totalMatched a b : ℚ) / (a.length + b.length)

/-- `EvaluationPipeline.sequence_similarity`:
`difflib.SequenceMatcher(None, str1, str2).ratio()`. -/
def sequence_similarity (str1 str2 : Str) : ℚ := ratio str1 str2

/-- `EvaluationPipeline.token_overlap`: Jaccard overlap of the whitespace
token sets; `0.0` if either set is empty. -/
def token_overlap (str1 str2 : Str) : ℚ :=
  let t1 := (pySplit str1).toFinset
  let t2 := (pySplit str2).toFinset
  if t1 = ∅ ∨ t2 = ∅ then 0
  else ((t1 ∩ t2).card : ℚ) / ((t1 ∪ t2).card : ℚ)

/-- Fuel-driven twin of `extendLeft` (structural recursion on the fuel), for
kernel evaluation at concrete inputs. -/
def extendLeftF (a b : Str) (alo blo : Nat) : Nat → Best → Best
  | 0, x => x
  | fuel+1, x =>
    if alo < x.i ∧ blo < x.j ∧ charAt a (x.i - 1) = charAt b (x.j - 1) then
      extendLeftF a b alo blo fuel ⟨x.i - 1, x.j - 1, x.size + 1⟩
    else x

/-- With enough fuel, `extendLeftF` agrees with `extendLeft`. -/
theorem extendLeftF_eq (a b : Str) (alo blo : Nat) :
    ∀ (fuel : Nat) (x : Best), x.i ≤ alo + fuel →
    extendLeftF a b alo blo fuel x = extendLeft a b alo blo x := by
  intro fuel
  induction fuel with
  | zero =>
    intro x hx
    show x = extendLeft a b alo blo x
    conv_rhs => unfold extendLeft
    rw [if_neg (by rintro ⟨h1, -, -⟩; omega)]
  | succ n ih =>
    intro x hx
    show (if alo < x.i ∧ blo < x.j ∧ charAt a (x.i - 1) = charAt b (x.j - 1) then
      extendLeftF a b alo blo n ⟨x.i - 1, x.j - 1, x.size + 1⟩ else x) = extendLeft a b alo blo x
    conv_rhs => unfold extendLeft
    by_cases hc : alo < x.i ∧ blo < x.j ∧ charAt a (x.i - 1) = charAt b (x.j - 1)
    · rw [if_pos hc, if_pos hc, ih ⟨x.i - 1, x.j - 1, x.size + 1⟩ (by dsimp only; omega)]
    · rw [if_neg hc, if_neg hc]

/-- Fuel-driven twin of `extendRight`. -/
def extendRightF (a b : Str) (ahi bhi : Nat) : Nat → Best → Best
  | 0, x => x
  | fuel+1, x =>
    if x.i + x.size < ahi ∧ x.j + x.size < bhi ∧
        charAt a (x.i + x.size) = charAt b (x.j + x.size) then
      extendRightF a b ahi bhi fuel ⟨x.i, x.j, x.size + 1⟩
    else x

/-- With enough fuel, `extendRightF` agrees with `extendRight`. -/
theorem extendRightF_eq (a b : Str) (ahi bhi : Nat) :
    ∀ (fuel : Nat) (x : Best), ahi ≤ x.i + x.size + fuel →
    extendRightF a b ahi bhi fuel x = extendRight a b ahi bhi x := by
  intro fuel
  induction fuel with
  | zero =>
    intro x hx
    show x = extendRight a b ahi bhi x
    conv_rhs => unfold extendRight
    rw [if_neg (by rintro ⟨h1, -, -⟩; omega)]
  | succ n ih =>
    intro x hx
    show (if x.i + x.size < ahi ∧ x.j + x.size < bhi ∧
        charAt a (x.i + x.size) = charAt b (x.j + x.size) then
      extendRightF a b ahi bhi n ⟨x.i, x.j, x.size + 1⟩ else x) = extendRight a b ahi bhi x
    conv_rhs => unfold extendRight
    by_cases hc : x.i + x.size < ahi ∧ x.j + x.size < bhi ∧
        charAt a (x.i + x.size) = charAt b (x.j + x.size)
    · rw [if_pos hc, if_pos hc, ih ⟨x.i, x.j, x.size + 1⟩ (by dsimp only; omega)]
    · rw [if_neg hc, if_neg hc]

/-- Kernel-evaluable form of `findLongestMatch`. -/
def findLongestMatchF (a b : Str) (alo ahi blo bhi : Nat) : Best :=
  extendRightF a b ahi bhi ahi
    (extendLeftF a b alo blo
      ((List.range' alo (ahi - alo)).foldl (outerStep a b blo bhi)
        ((fun _ => 0), ⟨alo, blo, 0⟩)).2.i
      ((List.range' alo (ahi - alo)).foldl (outerStep a b blo bhi)
        ((fun _ => 0), ⟨alo, blo, 0⟩)).2)

/-- `findLongestMatchF` agrees with `findLongestMatch`. -/
theorem findLongestMatchF_eq (a b : Str) (alo ahi blo bhi : Nat) :
    findLongestMatchF a b alo ahi blo bhi = findLongestMatch a b alo ahi blo bhi := by
  unfold findLongestMatchF findLongestMatch
  rw [extendLeftF_eq a b alo blo _ _ (Nat.le_add_left _ _),
    extendRightF_eq a b ahi bhi _ _ (Nat.le_add_left _ _)]

/-- Fuel-driven twin of `matchingBlocks`. -/
def matchingBlocksF (a b : Str) : Nat → Nat → Nat → Nat → Nat → List Best
  | 0, _, _, _, _ => []
  | fuel+1, alo, ahi, blo, bhi =>
    if (findLongestMatchF a b alo ahi blo bhi).size = 0 then []
    else
      (if alo < (findLongestMatchF a b alo ahi blo bhi).i ∧
          blo < (findLongestMatchF a b alo ahi blo bhi).j then
        matchingBlocksF a b fuel alo (findLongestMatchF a b alo ahi blo bhi).i
          blo (findLongestMatchF a b alo ahi blo bhi).j
      else []) ++
      findLongestMatchF a b alo ahi blo bhi ::
      (if (findLongestMatchF a b alo ahi blo bhi).i + (findLongestMatchF a b alo ahi blo bhi).size < ahi ∧
          (findLongestMatchF a b alo ahi blo bhi).j + (findLongestMatchF a b alo ahi blo bhi).size < bhi then
        matchingBlocksF a b fuel
          ((findLongestMatchF a b alo ahi blo bhi).i + (findLongestMatchF a b alo ahi blo bhi).size) ahi
          ((findLongestMatchF a b alo ahi blo bhi).j + (findLongestMatchF a b alo ahi blo bhi).size) bhi
      else [])

/-- With enough fuel, `matchingBlocksF` agrees with `matchingBlocks`. -/
theorem matchingBlocksF_eq (a b : Str) :
    ∀ (fuel alo ahi blo bhi : Nat), ahi - alo ≤ fuel →
    matchingBlocksF a b fuel alo ahi blo bhi = matchingBlocks a b alo ahi blo bhi := by
  intro fuel
  induction fuel with
  | zero =>
    intro alo ahi blo bhi h
    have hb := flm_bounds a b alo ahi blo bhi
    have hz : (findLongestMatch a b alo ahi blo bhi).size = 0 := by
      by_cases hs : (findLongestMatch a b alo ahi blo bhi).size = 0
      · exact hs
      · have := hb.2.2 hs
        omega
    show [] = matchingBlocks a b alo ahi blo bhi
    conv_rhs => unfold matchingBlocks
    rw [dif_pos hz]
  | succ n ih =>
    intro alo ahi blo bhi h
    have hb := flm_bounds a b alo ahi blo bhi
    show (if (findLongestMatchF a b alo ahi blo bhi).size = 0 then [] else _) =
      matchingBlocks a b alo ahi blo bhi
    conv_rhs => unfold matchingBlocks
    rw [findLongestMatchF_eq]
    by_cases hm : (findLongestMatch a b alo ahi blo bhi).size = 0
    · rw [if_pos hm, dif_pos hm]
    · rw [if_neg hm, dif_neg hm]
      have hbs := hb.2.2 hm
      by_cases hL : alo < (findLongestMatch a b alo ahi blo bhi).i ∧
          blo < (findLongestMatch a b alo ahi blo bhi).j
      · rw [if_pos hL, if_pos hL, ih _ _ _ _ (by omega)]
        by_cases hR : (findLongestMatch a b alo ahi blo bhi).i +
              (findLongestMatch a b alo ahi blo bhi).size < ahi ∧
            (findLongestMatch a b alo ahi blo bhi).j +
              (findLongestMatch a b alo ahi blo bhi).size < bhi
        · rw [if_pos hR, if_pos hR, ih _ _ _ _ (by omega)]
        · rw [if_neg hR, if_neg hR]
      · rw [if_neg hL, if_neg hL]
        by_cases hR : (findLongestMatch a b alo ahi blo bhi).i +
              (findLongestMatch a b alo ahi blo bhi).size < ahi ∧
            (findLongestMatch a b alo ahi blo bhi).j +
              (findLongestMatch a b alo ahi blo bhi).size < bhi
        · rw [if_pos hR, if_pos hR, ih _ _ _ _ (by omega)]
        · rw [if_neg hR, if_neg hR]

/-- Kernel-evaluable form of `totalMatched`. -/
def totalMatchedF (a b : Str) : Nat :=
  ((matchingBlocksF a b a.length 0 a.length 0 b.length).map Best.size).sum

/-- `totalMatchedF` agrees with `totalMatched`. -/
theorem totalMatchedF_eq (a b : Str) : totalMatchedF a b = totalMatched a b := by
  unfold totalMatchedF totalMatched
  rw [matchingBlocksF_eq a b a.length 0 a.length 0 b.length (by omega)]

/-- The four classifier states of `EvaluationState`. -/
inductive EvaluationState where
  | PERFECT
  | ACCEPTABLE
  | PARTIAL
  | WRONG
deriving DecidableEq

/-- The `EvaluationResult` dataclass. -/
structure EvaluationResult where
  state : EvaluationState
  advance : Bool
  feedback : Str
  confidence : Option ℚ := none
deriving DecidableEq

/-- The `Thresholds` dataclass. -/
structure Thresholds where
  auto_pass : ℚ
  ai_zone_low : ℚ
  accept_states : List EvaluationState
deriving DecidableEq

/-- `EvaluationPipeline.get_thresholds` (float literals as the decimal
rationals they denote). -/
def get_thresholds (lesson_type : Str) : Thresholds :=
  if lesson_type = str "mcq" then
    ⟨95/100, 50/100, [EvaluationState.PERFECT]⟩
  else if lesson_type = str "text" then
    ⟨90/100, 40/100, [EvaluationState.PERFECT, EvaluationState.ACCEPTABLE]⟩
  else if lesson_type = str "translation" then
    ⟨88/100, 35/100, [EvaluationState.PERFECT, EvaluationState.ACCEPTABLE]⟩
  else
    ⟨85/100, 45/100, [EvaluationState.PERFECT, EvaluationState.ACCEPTABLE]⟩

/-- `EvaluationPipeline.heuristic_score`: best over the expected answers of
`0.6 * sequence_similarity + 0.4 * token_overlap` on normalized strings,
starting from `0.0`. -/
def heuristic_score (user_answer : Str) (correct_answers : List Str) : ℚ :=
  correct_answers.foldl
    (fun best correct =>
      max best
        ((6/10) * sequence_similarity (normalize_text user_answer) (normalize_text correct) +
         (4/10) * token_overlap (normalize_text user_answer) (normalize_text correct)))
    0

/-- A character profile as consumed by the pipeline: only the `name` entry
of the dict is ever read (`character.get('name', 'Teacher')`); a dict
without the key is modelled by `none`. -/
structure Persona where
  nameEntry : Option Str
deriving DecidableEq

/-- `character.get('name', 'Teacher')` after the `if not character` default:
the persona name used by `ai_evaluate` and `polish_feedback`. -/
def personaName : Option Persona → Str
  | none => str "Teacher"
  | some p => p.nameEntry.getD (str "Teacher")

/-- The behaviour of the completion collaborator `call_gemini` on the one
call the pipeline may make: the import failed (`AI_AVAILABLE` false), the
awaited call raised or timed out, or it returned a text. -/
inductive AIOutcome where
  | unavailable
  | failure
  | ok (text : Str)
deriving DecidableEq

/-- Split at the first occurrence of `sep` (Python `split(sep, 1)`),
returning the part before it and, when found, the part after it. -/
def splitOnce (sep : Char) : Str → Str × Option Str
  | [] => ([], none)
  | c :: rest =>
    if c = sep then ([], some rest)
    else
      let r := splitOnce sep rest
      (c :: r.1, r.2)

/-- The `state_map.get(classification, EvaluationState.ACCEPTABLE)` lookup
of `ai_evaluate`. -/
def parseState (cls : Str) : EvaluationState :=
  if cls = str "PERFECT" then EvaluationState.PERFECT
  else if cls = str "ACCEPTABLE" then EvaluationState.ACCEPTABLE
  else if cls = str "PARTIAL" then EvaluationState.PARTIAL
  else if cls = str "WRONG" then EvaluationState.WRONG
  else EvaluationState.ACCEPTABLE

/-- The generic fallback feedback of `ai_evaluate`
(`f"{char_name} kehta hai: ..."`). -/
def aiFallbackFeedback (character : Option Persona) : Str :=
  personaName character ++ str " kehta hai: Sahi jawab check kar ke dubara try karo ji."

/-- `EvaluationPipeline.ai_evaluate`: unavailability and any exception from
the completion call produce the ACCEPTABLE fallback; a returned text is
stripped and split at the first newline — with two parts the first line is
stripped, uppercased and looked up in `state_map` (default ACCEPTABLE), with
one part the classification is the literal `"ACCEPTABLE"` and the feedback
is the whole stripped response.  The prompt construction (question text,
expected answers, last three exchanges) only feeds the collaborator, whose
behaviour is the `outcome` parameter. -/
def ai_evaluate (character : Option Persona) (outcome : AIOutcome) :
    EvaluationState × Str :=
  match outcome with
  | AIOutcome.unavailable => (EvaluationState.ACCEPTABLE, aiFallbackFeedback character)
  | AIOutcome.failure => (EvaluationState.ACCEPTABLE, aiFallbackFeedback character)
  | AIOutcome.ok t =>
    let s := pyStrip t
    match splitOnce '\n' s with
    | (l0, some l1) => (parseState (pyUpper (pyStrip l0)), pyStrip l1)
    | (_, none) => (EvaluationState.ACCEPTABLE, s)

/-- `EvaluationPipeline.polish_feedback`. -/
def polish_feedback (state : EvaluationState) (advance : Bool) (ai_feedback : Str)
    (character : Option Persona) : Str :=
  let char_name := personaName character
  if advance = true ∧ state = EvaluationState.ACCEPTABLE then
    if ai_feedback ≠ [] then
      str "Vadia! " ++ ai_feedback ++ str " Agge vadh, bas eh gall yaad rakh..."
    else char_name ++ str ": Shabaash! Sahi jawab. Agge vadh."
  else if advance = true ∧ state = EvaluationState.PERFECT then
    char_name ++ str ": Bilkul sahi! Shabaash!"
  else if advance = false ∧ state = EvaluationState.PARTIAL then
    if ai_feedback ≠ [] then
      char_name ++ str ": " ++ ai_feedback ++ str " Thoda aur try kar."
    else char_name ++ str ": Thoda aur sahi banake dubara try karo ji."
  else if advance = false then
    if ai_feedback ≠ [] then char_name ++ str ": " ++ ai_feedback
    else char_name ++ str ": Dubara try karo ji."
  else char_name ++ str ": Sahi jawab check karo ji."

/-- `EvaluationPipeline.evaluate_answer` — the async three-stage
orchestrator defined at lines 236-304 of `evaluation_pipeline.py`.
`character` is the (total) result of the optional `load_character` lookup,
`outcome` the behaviour of the completion collaborator.  Returns the
`EvaluationResult` paired with whether the completion collaborator was
invoked. -/
def evaluate_answer (character : Option Persona) (outcome : AIOutcome)
    (user_answer : Str) (correct_answers_list : List Str)
    (question_text : Str) (lesson_type : Str) : EvaluationResult × Bool :=
  if pyStrip user_answer = [] then
    (⟨EvaluationState.WRONG, false, str "Jawab likho ji.", none⟩, false)
  else
    if (get_thresholds lesson_type).auto_pass ≤ heuristic_score user_answer correct_answers_list then
      (⟨EvaluationState.PERFECT, true,
        polish_feedback EvaluationState.PERFECT true [] character,
        some (heuristic_score user_answer correct_answers_list)⟩, false)
    else if heuristic_score user_answer correct_answers_list < (get_thresholds lesson_type).ai_zone_low then
      (⟨EvaluationState.WRONG, false,
        polish_feedback EvaluationState.WRONG false [] character,
        some (heuristic_score user_answer correct_answers_list)⟩, false)
    else
      (⟨(ai_evaluate character outcome).1,
        decide ((ai_evaluate character outcome).1 ∈ (get_thresholds lesson_type).accept_states),
        polish_feedback (ai_evaluate character outcome).1
          (decide ((ai_evaluate character outcome).1 ∈ (get_thresholds lesson_type).accept_states))
          (ai_evaluate character outcome).2 character,
        some (heuristic_score user_answer correct_answers_list)⟩, true)

/-! ## Basic lemmas -/

/-- Folding `max` with `f` stays below any bound dominating the seed and all
elements. -/
theorem foldl_max_le {α : Type} (f : α → ℚ) (B : ℚ) :
    ∀ (l : List α) (init : ℚ), init ≤ B → (∀ c ∈ l, f c ≤ B) →
    l.foldl (fun b c => max b (f c)) init ≤ B := by
  intro l
  induction l with
  | nil => intro init h _; simpa using h
  | cons c rest ih =>
    intro init h hl
    simp only [List.foldl_cons]
    exact ih _ (max_le h (hl c (List.mem_cons_self c rest)))
      (fun d hd => hl d (List.mem_cons_of_mem _ hd))

/-- The seed is below the fold of `max`. -/
theorem le_foldl_max {α : Type} (f : α → ℚ) :
    ∀ (l : List α) (init : ℚ), init ≤ l.foldl (fun b c => max b (f c)) init := by
  intro l
  induction l with
  | nil => intro init; simp
  | cons c rest ih =>
    intro init
    simp only [List.foldl_cons]
    exact le_trans (le_max_left _ _) (ih (max init (f c)))

/-- Folding `max` dominates every element. -/
theorem foldl_max_of_mem {α : Type} (f : α → ℚ) :
    ∀ (l : List α) (init : ℚ) (c : α), c ∈ l →
    f c ≤ l.foldl (fun b c => max b (f c)) init := by
  intro l
  induction l with
  | nil => intro init c hc; cases hc
  | cons d rest ih =>
    intro init c hc
    simp only [List.foldl_cons]
    rcases List.mem_cons.mp hc with h | h
    · subst h
      exact le_trans (le_max_right _ _) (le_foldl_max f rest (max init (f c)))
    · exact ih _ c h

/-- The threshold table facts used by the claims. -/
theorem get_thresholds_facts (lt : Str) :
    0 < (get_thresholds lt).ai_zone_low ∧
    (get_thresholds lt).ai_zone_low < (get_thresholds lt).auto_pass ∧
    (get_thresholds lt).auto_pass ≤ 1 ∧
    EvaluationState.PERFECT ∈ (get_thresholds lt).accept_states ∧
    EvaluationState.WRONG ∉ (get_thresholds lt).accept_states ∧
    (get_thresholds lt).ai_zone_low < 3/5 ∧
    (3/5 : ℚ) < (get_thresholds lt).auto_pass := by
  unfold get_thresholds
  split_ifs <;>
    refine ⟨by norm_num, by norm_num, by norm_num, by decide, by decide, by norm_num, by norm_num⟩

/-- `dropWhile` produces a list whose head falsifies the predicate. -/
theorem dropWhile_eq_cons_head {α : Type} (p : α → Bool) :
    ∀ (l : List α) (c : α) (t : List α), l.dropWhile p = c :: t → p c = false := by
  intro l
  induction l with
  | nil => intro c t h; cases h
  | cons a rest ih =>
    intro c t h
    rw [List.dropWhile_cons] at h
    split at h
    · exact ih c t h
    · cases h
      simpa using ‹¬ p a = true›

/-- An element failing the predicate survives `dropWhile` when it closes the
list. -/
theorem mem_dropWhile_append_singleton {α : Type} (p : α → Bool) (x : α)
    (hx : p x = false) : ∀ (l : List α), x ∈ (l ++ [x]).dropWhile p := by
  intro l
  induction l with
  | nil => simp [List.dropWhile_cons, hx]
  | cons a rest ih =>
    rw [List.cons_append, List.dropWhile_cons]
    split
    · exact ih
    · simp

/-- A non-empty stripped string contains a non-whitespace character. -/
theorem pyStrip_has_nonspace {l : Str} (h : pyStrip l ≠ []) :
    ∃ c ∈ pyStrip l, pyIsSpace c = false := by
  unfold pyStrip at *
  rcases hD : (l.dropWhile pyIsSpace) with _ | ⟨c, t⟩
  · rw [hD] at h; simp at h
  · have hc : pyIsSpace c = false := dropWhile_eq_cons_head pyIsSpace l c t hD
    refine ⟨c, ?_, hc⟩
    rw [List.mem_reverse]
    have : (c :: t).reverse = t.reverse ++ [c] := by simp
    rw [this]
    exact mem_dropWhile_append_singleton pyIsSpace c hc t.reverse

/-- `pySplitAux` with a pending word never returns the empty list. -/
theorem pySplitAux_ne_nil_of_acc : ∀ (l acc : Str), acc ≠ [] → pySplitAux l acc ≠ [] := by
  intro l
  induction l with
  | nil =>
    intro acc h
    rw [pySplitAux, if_neg h]
    simp
  | cons c rest ih =>
    intro acc h
    rw [pySplitAux]
    by_cases h1 : pyIsSpace c = true
    · rw [if_pos h1, if_neg h]
      simp
    · rw [if_neg h1]
      exact ih _ (by simp)

/-- A string containing a non-whitespace character splits into at least one
token. -/
theorem pySplit_ne_nil {s : Str} (h : ∃ c ∈ s, pyIsSpace c = false) :
    pySplit s ≠ [] := by
  unfold pySplit
  suffices hgen : ∀ (l acc : Str), (∃ c ∈ l, pyIsSpace c = false) → pySplitAux l acc ≠ [] by
    exact hgen s [] h
  intro l
  induction l with
  | nil => intro acc h; simp at h
  | cons c rest ih =>
    intro acc h
    rw [pySplitAux]
    by_cases h1 : pyIsSpace c = true
    · rw [if_pos h1]
      obtain ⟨d, hd, hdf⟩ := h
      have hdr : d ∈ rest := by
        rcases List.mem_cons.mp hd with he | he
        · subst he; rw [h1] at hdf; cases hdf
        · exact he
      by_cases h2 : acc = []
      · rw [if_pos h2]; exact ih _ ⟨d, hdr, hdf⟩
      · rw [if_neg h2]; simp
    · rw [if_neg h1]
      exact pySplitAux_ne_nil_of_acc _ _ (by simp)

/-- `token_overlap` of a string with itself is `1` once there is at least
one token. -/
theorem token_overlap_self {s : Str} (h : pySplit s ≠ []) :
    token_overlap s s = 1 := by
  unfold token_overlap
  have hne : (pySplit s).toFinset ≠ ∅ := by
    intro hcon
    rcases List.exists_mem_of_ne_nil _ h with ⟨w, hw⟩
    have : w ∈ (pySplit s).toFinset := List.mem_toFinset.mpr hw
    rw [hcon] at this
    cases this
  rw [if_neg (by push_neg; exact ⟨hne, hne⟩)]
  rw [Finset.inter_self, Finset.union_self]
  have hpos : (0 : ℚ) < ((pySplit s).toFinset.card : ℚ) := by
    have : 0 < (pySplit s).toFinset.card :=
      Finset.card_pos.mpr (Finset.nonempty_iff_ne_empty.mpr hne)
    exact_mod_cast this
  exact div_self (ne_of_gt hpos)

/-- `token_overlap` vanishes when the first string has no tokens. -/
theorem token_overlap_nil_left (s : Str) : token_overlap [] s = 0 := by
  unfold token_overlap
  rw [if_pos]
  left
  rfl

/-- `token_overlap` is at most `1`. -/
theorem token_overlap_le_one (s1 s2 : Str) : token_overlap s1 s2 ≤ 1 := by
  unfold token_overlap
  dsimp only
  split_ifs with h
  · norm_num
  · push_neg at h
    have hcard : ((pySplit s1).toFinset ∩ (pySplit s2).toFinset).card ≤
        ((pySplit s1).toFinset ∪ (pySplit s2).toFinset).card :=
      Finset.card_le_card (Finset.inter_subset_union)
    have hpos : (0 : ℚ) < (((pySplit s1).toFinset ∪ (pySplit s2).toFinset).card : ℚ) := by
      have h1 : (pySplit s1).toFinset.Nonempty := Finset.nonempty_iff_ne_empty.mpr h.1
      have : 0 < ((pySplit s1).toFinset ∪ (pySplit s2).toFinset).card :=
        Finset.card_pos.mpr (Finset.Nonempty.mono Finset.subset_union_left h1)
      exact_mod_cast this
    rw [div_le_one hpos]
    exact_mod_cast hcard

/-- `token_overlap` is non-negative. -/
theorem token_overlap_nonneg (s1 s2 : Str) : 0 ≤ token_overlap s1 s2 := by
  unfold token_overlap
  dsimp only
  split_ifs with h
  · norm_num
  · positivity

/-- `extendLeft` with a failing guard. -/
theorem extendLeft_noop (a b : Str) (alo blo : Nat) (x : Best)
    (h : ¬(alo < x.i ∧ blo < x.j ∧ charAt a (x.i - 1) = charAt b (x.j - 1))) :
    extendLeft a b alo blo x = x := by
  rw [extendLeft, if_neg h]

/-- `extendRight` with a failing guard. -/
theorem extendRight_noop (a b : Str) (ahi bhi : Nat) (x : Best)
    (h : ¬(x.i + x.size < ahi ∧ x.j + x.size < bhi ∧
      charAt a (x.i + x.size) = charAt b (x.j + x.size))) :
    extendRight a b ahi bhi x = x := by
  rw [extendRight, if_neg h]

/-- `find_longest_match` on an empty `a`-range returns the empty block. -/
theorem flm_empty_a (a b : Str) (alo ahi blo bhi : Nat) (h : ahi ≤ alo) :
    findLongestMatch a b alo ahi blo bhi = ⟨alo, blo, 0⟩ := by
  rw [findLongestMatch]
  rw [Nat.sub_eq_zero_of_le h]
  rw [show List.range' alo 0 = [] from rfl, List.foldl_nil]
  rw [extendLeft_noop _ _ _ _ _ (by dsimp only; rintro ⟨h1, -, -⟩; omega)]
  rw [extendRight_noop _ _ _ _ _ (by dsimp only; rintro ⟨h1, -, -⟩; omega)]

/-- No matches against an empty first string. -/
theorem totalMatched_nil_left (b : Str) : totalMatched [] b = 0 := by
  unfold totalMatched
  rw [matchingBlocks]
  rw [dif_pos (by rw [show ([] : Str).length = 0 from rfl, flm_empty_a _ _ _ _ _ _ (Nat.le_refl 0)])]
  rfl

/-- `ratio` of the empty string against a non-empty string is `0`. -/
theorem ratio_nil_left {b : Str} (hb : b.length ≠ 0) : ratio [] b = 0 := by
  unfold ratio
  rw [if_neg (by simpa using hb)]
  rw [totalMatched_nil_left]
  simp

/-- The sizes of the matching blocks sum to at most the lengths of both
ranges. -/
theorem matchingBlocks_sum_bound (a b : Str) :
    ∀ (n alo ahi blo bhi : Nat), ahi - alo ≤ n →
    ((matchingBlocks a b alo ahi blo bhi).map Best.size).sum ≤ ahi - alo ∧
    ((matchingBlocks a b alo ahi blo bhi).map Best.size).sum ≤ bhi - blo := by
  intro n
  induction n with
  | zero =>
    intro alo ahi blo bhi hle
    rw [matchingBlocks]
    by_cases hm : (findLongestMatch a b alo ahi blo bhi).size = 0
    · rw [dif_pos hm]; simp
    · exfalso
      have hb := (flm_bounds a b alo ahi blo bhi)
      have h1 := hb.1
      have h2 := hb.2.2 hm
      omega
  | succ nk ih =>
    intro alo ahi blo bhi hle
    rw [matchingBlocks]
    by_cases hm : (findLongestMatch a b alo ahi blo bhi).size = 0
    · rw [dif_pos hm]; simp
    · rw [dif_neg hm]
      have hb := (flm_bounds a b alo ahi blo bhi)
      have h1 := hb.1
      have h1' := hb.2.1
      have h2 := hb.2.2 hm
      have hL : ((if alo < (findLongestMatch a b alo ahi blo bhi).i ∧
            blo < (findLongestMatch a b alo ahi blo bhi).j then
          matchingBlocks a b alo (findLongestMatch a b alo ahi blo bhi).i
            blo (findLongestMatch a b alo ahi blo bhi).j
        else []).map Best.size).sum ≤ (findLongestMatch a b alo ahi blo bhi).i - alo ∧
        ((if alo < (findLongestMatch a b alo ahi blo bhi).i ∧
            blo < (findLongestMatch a b alo ahi blo bhi).j then
          matchingBlocks a b alo (findLongestMatch a b alo ahi blo bhi).i
            blo (findLongestMatch a b alo ahi blo bhi).j
        else []).map Best.size).sum ≤ (findLongestMatch a b alo ahi blo bhi).j - blo := by
        split_ifs with hc
        · exact ih _ _ _ _ (by omega)
        · simp
      have hR : ((if (findLongestMatch a b alo ahi blo bhi).i +
              (findLongestMatch a b alo ahi blo bhi).size < ahi ∧
            (findLongestMatch a b alo ahi blo bhi).j +
              (findLongestMatch a b alo ahi blo bhi).size < bhi then
          matchingBlocks a b
            ((findLongestMatch a b alo ahi blo bhi).i +
              (findLongestMatch a b alo ahi blo bhi).size) ahi
            ((findLongestMatch a b alo ahi blo bhi).j +
              (findLongestMatch a b alo ahi blo bhi).size) bhi
        else []).map Best.size).sum ≤
          ahi - ((findLongestMatch a b alo ahi blo bhi).i +
            (findLongestMatch a b alo ahi blo bhi).size) ∧
        ((if (findLongestMatch a b alo ahi blo bhi).i +
              (findLongestMatch a b alo ahi blo bhi).size < ahi ∧
            (findLongestMatch a b alo ahi blo bhi).j +
              (findLongestMatch a b alo ahi blo bhi).size < bhi then
          matchingBlocks a b
            ((findLongestMatch a b alo ahi blo bhi).i +
              (findLongestMatch a b alo ahi blo bhi).size) ahi
            ((findLongestMatch a b alo ahi blo bhi).j +
              (findLongestMatch a b alo ahi blo bhi).size) bhi
        else []).map Best.size).sum ≤
          bhi - ((findLongestMatch a b alo ahi blo bhi).j +
            (findLongestMatch a b alo ahi blo bhi).size) := by
        split_ifs with hc
        · exact ih _ _ _ _ (by omega)
        · simp
      rw [List.map_append, List.sum_append, List.map_cons, List.sum_cons]
      omega

/-- `ratio` never exceeds `1`. -/
theorem ratio_le_one (a b : Str) : ratio a b ≤ 1 := by
  unfold ratio
  split_ifs with h
  · norm_num
  · have hM := matchingBlocks_sum_bound a b a.length 0 a.length 0 b.length (by omega)
    unfold totalMatched
    have h2M : 2 * ((matchingBlocks a b 0 a.length 0 b.length).map Best.size).sum ≤
        a.length + b.length := by omega
    rw [div_le_one (by exact_mod_cast Nat.pos_of_ne_zero h)]
    exact_mod_cast h2M

/-- `ratio` is non-negative. -/
theorem ratio_nonneg (a b : Str) : 0 ≤ ratio a b := by
  unfold ratio
  split_ifs with h
  · norm_num
  · positivity

/-! ## `ratio` of a string with itself

`j2len` semantics on identical sequences: `selfRun a i j` is the value the
inner dynamic program of `find_longest_match` associates to position `j`
after outer step `i`, for `a` matched against itself over the full ranges.
The development below shows every best-block update is diagonal, so the
extension loops blow the final block up to the whole string. -/

/-- The condition under which position `j` is chained at outer step `i`
(`a[i] == b[j]` and `j` not autojunk-purged). -/
def selfCond (a : Str) (i j : Nat) : Prop :=
  charAt a j = charAt a i ∧ isPopular a (charAt a j) = false ∧ j < a.length

instance selfCond.dec (a : Str) (i j : Nat) : Decidable (selfCond a i j) :=
  inferInstanceAs (Decidable (_ ∧ _ ∧ _))

/-- Run lengths of the inner dynamic program on `a` against itself. -/
def selfRun (a : Str) : Nat → Nat → Nat
  | 0, j => if selfCond a 0 j then 1 else 0
  | i + 1, 0 => if selfCond a (i + 1) 0 then 1 else 0
  | i + 1, j + 1 => if selfCond a (i + 1) (j + 1) then selfRun a i j + 1 else 0

/-- Uniform unfolding of `selfRun`. -/
theorem selfRun_eq (a : Str) (i j : Nat) :
    selfRun a i j =
      if selfCond a i j then
        (if i = 0 ∨ j = 0 then 0 else selfRun a (i - 1) (j - 1)) + 1
      else 0 := by
  match i, j with
  | 0, j => simp [selfRun]
  | i + 1, 0 => simp [selfRun]
  | i + 1, j + 1 => simp [selfRun]

/-- A failing condition kills the run. -/
theorem selfRun_eq_zero {a : Str} {i j : Nat} (h : ¬ selfCond a i j) :
    selfRun a i j = 0 := by
  rw [selfRun_eq, if_neg h]

/-- Run lengths are bounded by both indices. -/
theorem selfRun_le (a : Str) : ∀ i j, selfRun a i j ≤ min i j + 1 := by
  intro i
  induction i with
  | zero =>
    intro j
    rw [selfRun_eq]
    split
    · rw [if_pos (Or.inl rfl)]; omega
    · omega
  | succ i' ih =>
    intro j
    match j with
    | 0 =>
      rw [selfRun_eq]
      split
      · rw [if_pos (Or.inr rfl)]; omega
      · omega
    | j' + 1 =>
      rw [selfRun_eq]
      split
      · rw [if_neg (by omega)]
        simp only [Nat.add_sub_cancel]
        have := ih j'
        omega
      · omega

/-- Any run ending at `(i, j)` with `j ≤ i` is dominated by the diagonal
run at `(j, j)`. -/
theorem selfRun_le_diag_left (a : Str) : ∀ j i, j ≤ i → selfRun a i j ≤ selfRun a j j := by
  intro j
  induction j with
  | zero =>
    intro i _
    by_cases hc : selfCond a i 0
    · have hc0 : selfCond a 0 0 := ⟨rfl, hc.2.1, hc.2.2⟩
      rw [selfRun_eq a i 0, if_pos hc, if_pos (Or.inr rfl)]
      rw [selfRun_eq a 0 0, if_pos hc0, if_pos (Or.inl rfl)]
    · rw [selfRun_eq_zero hc]; omega
  | succ j' ih =>
    intro i hji
    match i, hji with
    | i' + 1, hji =>
      by_cases hc : selfCond a (i' + 1) (j' + 1)
      · have hc0 : selfCond a (j' + 1) (j' + 1) := ⟨rfl, hc.2.1, hc.2.2⟩
        rw [selfRun_eq a (i' + 1) (j' + 1), if_pos hc, if_neg (by omega)]
        rw [selfRun_eq a (j' + 1) (j' + 1), if_pos hc0, if_neg (by omega)]
        simp only [Nat.add_sub_cancel]
        have := ih i' (by omega)
        omega
      · rw [selfRun_eq_zero hc]; omega

/-- Any run ending at `(i, j)` with `i ≤ j` is dominated by the diagonal
run at `(i, i)`. -/
theorem selfRun_le_diag_right (a : Str) : ∀ i j, i ≤ j → selfRun a i j ≤ selfRun a i i := by
  intro i
  induction i with
  | zero =>
    intro j hij
    by_cases hc : selfCond a 0 j
    · have hpop : isPopular a (charAt a 0) = false := by rw [← hc.1]; exact hc.2.1
      have hc0 : selfCond a 0 0 := ⟨rfl, hpop, by have := hc.2.2; omega⟩
      rw [selfRun_eq a 0 j, if_pos hc, if_pos (Or.inl rfl)]
      rw [selfRun_eq a 0 0, if_pos hc0, if_pos (Or.inl rfl)]
    · rw [selfRun_eq_zero hc]; omega
  | succ i' ih =>
    intro j hij
    match j, hij with
    | j' + 1, hij =>
      by_cases hc : selfCond a (i' + 1) (j' + 1)
      · have hpop : isPopular a (charAt a (i' + 1)) = false := by rw [← hc.1]; exact hc.2.1
        have hc0 : selfCond a (i' + 1) (i' + 1) := ⟨rfl, hpop, by have := hc.2.2; omega⟩
        rw [selfRun_eq a (i' + 1) (j' + 1), if_pos hc, if_neg (by omega)]
        rw [selfRun_eq a (i' + 1) (i' + 1), if_pos hc0, if_neg (by omega)]
        simp only [Nat.add_sub_cancel]
        have := ih j' (by omega)
        omega
      · rw [selfRun_eq_zero hc]; omega

/-- Processing one inner loop of `find_longest_match` on `a` against itself
keeps the best block diagonal: every pending `j` below the outer index `m`
is dominated by an already-seen diagonal run, `j = m` updates on the
diagonal, and every `j` above `m` is dominated by the diagonal run at `m`
(processed earlier in the ascending list). -/
theorem innerFold_diag (a : Str) (m : Nat) (hm : m < a.length) (oldJ : Nat → Nat)
    (hOld : ∀ x, oldJ x = if m = 0 then 0 else selfRun a (m - 1) x) :
    ∀ (L : List Nat) (st : (Nat → Nat) × Best),
    (∀ j ∈ L, selfCond a m j) →
    List.Pairwise (· < ·) L →
    (∀ x, st.1 x = if x ∈ L then 0 else selfRun a m x) →
    st.2.i = st.2.j →
    st.2.i + st.2.size ≤ a.length →
    (∀ j ∈ L, j < m → selfRun a m j ≤ st.2.size) →
    (m ∈ L ∨ ∀ j ∈ L, selfRun a m j ≤ st.2.size) →
    ((∀ x, (L.foldl (innerStep m oldJ) st).1 x = selfRun a m x) ∧
     (L.foldl (innerStep m oldJ) st).2.i = (L.foldl (innerStep m oldJ) st).2.j ∧
     (L.foldl (innerStep m oldJ) st).2.i + (L.foldl (innerStep m oldJ) st).2.size ≤ a.length ∧
     st.2.size ≤ (L.foldl (innerStep m oldJ) st).2.size ∧
     (∀ j ∈ L, selfRun a m j ≤ (L.foldl (innerStep m oldJ) st).2.size)) := by
  intro L
  induction L with
  | nil =>
    intro st hL hPW hJ hdiag hsum hD hE
    refine ⟨?_, hdiag, hsum, Nat.le_refl _, ?_⟩
    · intro x
      have := hJ x
      simpa using this
    · intro j hj; cases hj
  | cons j rest ih =>
    intro st hL hPW hJ hdiag hsum hD hE
    obtain ⟨hchar, hpop, hjn⟩ := hL j (List.mem_cons_self j rest)
    have hPWr := (List.pairwise_cons.mp hPW).2
    have hPWh := (List.pairwise_cons.mp hPW).1
    have hjr : j ∉ rest := fun hc => absurd (hPWh j hc) (lt_irrefl j)
    have hk : (if j = 0 then 0 else oldJ (j - 1)) + 1 = selfRun a m j := by
      by_cases hj0 : j = 0
      · rw [if_pos hj0, selfRun_eq a m j, if_pos ⟨hchar, hpop, hjn⟩, if_pos (Or.inr hj0)]
      · rw [if_neg hj0, selfRun_eq a m j, if_pos ⟨hchar, hpop, hjn⟩]
        by_cases hm0 : m = 0
        · rw [if_pos (Or.inl hm0), hOld, if_pos hm0]
        · rw [if_neg (by rintro (h | h) <;> [exact hm0 h; exact hj0 h]), hOld, if_neg hm0]
    have hfst : ∀ x, (innerStep m oldJ st j).1 x =
        if x = j then selfRun a m j else st.1 x := by
      intro x
      rw [innerStep_fst, hk]
    have hsnd : (innerStep m oldJ st j).2 =
        if st.2.size < selfRun a m j then
          ⟨m + 1 - selfRun a m j, j + 1 - selfRun a m j, selfRun a m j⟩
        else st.2 := by
      rw [innerStep_snd, hk]
    have hJ' : ∀ x, (innerStep m oldJ st j).1 x =
        if x ∈ rest then 0 else selfRun a m x := by
      intro x
      rw [hfst]
      by_cases hxj : x = j
      · subst hxj
        rw [if_pos rfl, if_neg hjr]
      · rw [if_neg hxj, hJ x]
        by_cases hxr : x ∈ rest
        · rw [if_pos (List.mem_cons_of_mem _ hxr), if_pos hxr]
        · rw [if_neg (by simp [hxj, hxr]), if_neg hxr]
    have hLr : ∀ j' ∈ rest, selfCond a m j' := fun j' hj' => hL j' (List.mem_cons_of_mem _ hj')
    simp only [List.foldl_cons]
    rcases Nat.lt_trichotomy j m with hjm | hjm | hjm
    · -- j < m : dominated by the diagonal run at (j, j), seen in an earlier
      -- outer step, whose value is a lower bound of the best size.
      have hle : selfRun a m j ≤ st.2.size := hD j (List.mem_cons_self j rest) hjm
      have hkeep : (innerStep m oldJ st j).2 = st.2 := by
        rw [hsnd, if_neg (not_lt.mpr hle)]
      have hres := ih (innerStep m oldJ st j) hLr hPWr hJ'
        (by rw [hkeep]; exact hdiag) (by rw [hkeep]; exact hsum)
        (by rw [hkeep]; exact fun j' hj' h => hD j' (List.mem_cons_of_mem _ hj') h)
        (by
          rw [hkeep]
          rcases hE with hE | hE
          · rcases List.mem_cons.mp hE with he | he
            · omega
            · exact Or.inl he
          · exact Or.inr (fun j' hj' => hE j' (List.mem_cons_of_mem _ hj')))
      refine ⟨hres.1, hres.2.1, hres.2.2.1, ?_, ?_⟩
      · rw [← hkeep]; exact hres.2.2.2.1
      · intro j' hj'
        rcases List.mem_cons.mp hj' with he | he
        · rw [he]
          have : st.2.size ≤ (rest.foldl (innerStep m oldJ) (innerStep m oldJ st j)).2.size := by
            rw [← hkeep]; exact hres.2.2.2.1
          omega
        · exact hres.2.2.2.2 j' he
    · -- j = m : the only position where the best can move, and it moves to a
      -- diagonal block.
      subst hjm
      have hD' : ∀ j' ∈ rest, j' < j → selfRun a j j' ≤ (innerStep j oldJ st j).2.size := by
        intro j' hj' hlt
        exact absurd (hPWh j' hj') (by omega)
      have hE' : ∀ j' ∈ rest, selfRun a j j' ≤ (innerStep j oldJ st j).2.size := by
        intro j' hj'
        have h1 : selfRun a j j' ≤ selfRun a j j :=
          selfRun_le_diag_right a j j' (le_of_lt (hPWh j' hj'))
        by_cases hup : st.2.size < selfRun a j j
        · rw [hsnd, if_pos hup]
          exact h1
        · rw [hsnd, if_neg hup]
          omega
      have hgrow : st.2.size ≤ (innerStep j oldJ st j).2.size := by
        by_cases hup : st.2.size < selfRun a j j
        · rw [hsnd, if_pos hup]; exact le_of_lt hup
        · rw [hsnd, if_neg hup]
      have hdiag' : (innerStep j oldJ st j).2.i = (innerStep j oldJ st j).2.j := by
        by_cases hup : st.2.size < selfRun a j j
        · rw [hsnd, if_pos hup]
        · rw [hsnd, if_neg hup]; exact hdiag
      have hsum' : (innerStep j oldJ st j).2.i + (innerStep j oldJ st j).2.size ≤ a.length := by
        by_cases hup : st.2.size < selfRun a j j
        · rw [hsnd, if_pos hup]
          show j + 1 - selfRun a j j + selfRun a j j ≤ a.length
          have := selfRun_le a j j
          omega
        · rw [hsnd, if_neg hup]; exact hsum
      have hself : selfRun a j j ≤ (innerStep j oldJ st j).2.size := by
        by_cases hup : st.2.size < selfRun a j j
        · rw [hsnd, if_pos hup]
        · rw [hsnd, if_neg hup]; omega
      have hres := ih (innerStep j oldJ st j) hLr hPWr hJ' hdiag' hsum' hD' (Or.inr hE')
      refine ⟨hres.1, hres.2.1, hres.2.2.1, le_trans hgrow hres.2.2.2.1, ?_⟩
      intro j' hj'
      rcases List.mem_cons.mp hj' with he | he
      · subst he
        exact le_trans hself hres.2.2.2.1
      · exact hres.2.2.2.2 j' he
    · -- m < j : the diagonal run at (m, m) was processed earlier in this
      -- very list (positions are ascending), so no update happens.
      have hmL : m ∉ (j :: rest) := by
        intro hc
        rcases List.mem_cons.mp hc with he | he
        · omega
        · exact absurd (hPWh m he) (by omega)
      have hle : selfRun a m j ≤ st.2.size := by
        rcases hE with hE | hE
        · exact absurd hE hmL
        · exact hE j (List.mem_cons_self j rest)
      have hkeep : (innerStep m oldJ st j).2 = st.2 := by
        rw [hsnd, if_neg (not_lt.mpr hle)]
      have hres := ih (innerStep m oldJ st j) hLr hPWr hJ'
        (by rw [hkeep]; exact hdiag) (by rw [hkeep]; exact hsum)
        (by rw [hkeep]; exact fun j' hj' h => hD j' (List.mem_cons_of_mem _ hj') h)
        (by
          rw [hkeep]
          rcases hE with hE | hE
          · exact absurd hE hmL
          · exact Or.inr (fun j' hj' => hE j' (List.mem_cons_of_mem _ hj')))
      refine ⟨hres.1, hres.2.1, hres.2.2.1, ?_, ?_⟩
      · rw [← hkeep]; exact hres.2.2.2.1
      · intro j' hj'
        rcases List.mem_cons.mp hj' with he | he
        · rw [he]
          have : st.2.size ≤ (rest.foldl (innerStep m oldJ) (innerStep m oldJ st j)).2.size := by
            rw [← hkeep]; exact hres.2.2.2.1
          omega
        · exact hres.2.2.2.2 j' he

/-- `takeWhile` keeps a list all of whose elements satisfy the predicate. -/
theorem takeWhile_all {α : Type} (p : α → Bool) :
    ∀ (l : List α), (∀ x ∈ l, p x = true) → l.takeWhile p = l := by
  intro l
  induction l with
  | nil => intro _; rfl
  | cons c rest ih =>
    intro h
    rw [List.takeWhile_cons, if_pos (h c (List.mem_cons_self c rest))]
    rw [ih (fun x hx => h x (List.mem_cons_of_mem _ hx))]

/-- Membership in `positions`. -/
theorem mem_positions {b : Str} {c : Char} {j : Nat} :
    j ∈ positions b c ↔ j < b.length ∧ charAt b j = c := by
  simp [positions, List.mem_filter, List.mem_range]

/-- `positions` is strictly ascending. -/
theorem pairwise_positions (b : Str) (c : Char) :
    List.Pairwise (· < ·) (positions b c) :=
  (List.pairwise_lt_range b.length).sublist (List.filter_sublist _)

/-- Over the full ranges, the blo/bhi trimming of the inner loop is the
identity. -/
theorem innerJs_full (b : Str) (c : Char) :
    innerJs b c 0 b.length = b2jGet b c := by
  unfold innerJs
  have h1 : (b2jGet b c).filter (fun j => decide (0 ≤ j)) = b2jGet b c :=
    List.filter_eq_self.mpr (fun x _ => by simp)
  rw [h1]
  apply takeWhile_all
  intro x hx
  unfold b2jGet at hx
  split at hx
  · cases hx
  · simp only [decide_eq_true_eq]
    exact (mem_positions.mp hx).1

/-- The outer loop of `find_longest_match` on `a` against itself over the
full ranges: `j2len` tracks `selfRun`, the best block stays diagonal inside
the string, and dominates every run seen so far. -/
theorem foldOuter_diag (a : Str) :
    ∀ (m : Nat), m ≤ a.length →
    ((∀ x, ((List.range m).foldl (outerStep a a 0 a.length) ((fun _ => 0), ⟨0, 0, 0⟩)).1 x =
        if m = 0 then 0 else selfRun a (m - 1) x) ∧
     ((List.range m).foldl (outerStep a a 0 a.length) ((fun _ => 0), ⟨0, 0, 0⟩)).2.i =
       ((List.range m).foldl (outerStep a a 0 a.length) ((fun _ => 0), ⟨0, 0, 0⟩)).2.j ∧
     ((List.range m).foldl (outerStep a a 0 a.length) ((fun _ => 0), ⟨0, 0, 0⟩)).2.i +
       ((List.range m).foldl (outerStep a a 0 a.length) ((fun _ => 0), ⟨0, 0, 0⟩)).2.size ≤
       a.length ∧
     (∀ i' j, i' < m →
       selfRun a i' j ≤
         ((List.range m).foldl (outerStep a a 0 a.length) ((fun _ => 0), ⟨0, 0, 0⟩)).2.size)) := by
  intro m
  induction m with
  | zero =>
    intro _
    refine ⟨fun x => rfl, rfl, by simp, ?_⟩
    intro i' j h; cases h
  | succ m ih =>
    intro hmn
    have hm : m < a.length := by omega
    obtain ⟨ihJ, ihdiag, ihsum, ihdom⟩ := ih (by omega)
    rw [List.range_succ, List.foldl_append, List.foldl_cons, List.foldl_nil]
    set st := (List.range m).foldl (outerStep a a 0 a.length) ((fun _ => 0), ⟨0, 0, 0⟩) with hst
    rw [show outerStep a a 0 a.length st m =
      (innerJs a (charAt a m) 0 a.length).foldl (innerStep m st.1) ((fun _ => 0), st.2) from rfl]
    rw [innerJs_full]
    by_cases hpop : isPopular a (charAt a m) = true
    · -- every occurrence of a[m] was purged from b2j: the inner loop is
      -- empty and no position chains at step m.
      rw [show b2jGet a (charAt a m) = [] from by unfold b2jGet; rw [if_pos hpop]]
      rw [List.foldl_nil]
      have hrunz : ∀ x, selfRun a m x = 0 := by
        intro x
        apply selfRun_eq_zero
        rintro ⟨h1, h2, h3⟩
        rw [h1] at h2
        rw [hpop] at h2
        cases h2
      refine ⟨?_, ihdiag, ihsum, ?_⟩
      · intro x
        rw [if_neg (Nat.succ_ne_zero m), Nat.add_sub_cancel, hrunz x]
      · intro i' j hi'
        rcases Nat.lt_succ_iff_lt_or_eq.mp hi' with h | h
        · exact ihdom i' j h
        · subst h; rw [hrunz j]; omega
    · -- a[m] survives in b2j: run the diagonal inner-loop analysis over the
      -- ascending occurrence list.
      rw [show b2jGet a (charAt a m) = positions a (charAt a m) from by
        unfold b2jGet; rw [if_neg hpop]]
      have hpopf : isPopular a (charAt a m) = false := by
        cases h : isPopular a (charAt a m)
        · rfl
        · exact absurd h hpop
      have hmem : m ∈ positions a (charAt a m) := mem_positions.mpr ⟨hm, rfl⟩
      have hres := innerFold_diag a m hm st.1 ihJ (positions a (charAt a m))
        ((fun _ => 0), st.2)
        (by
          intro j hj
          obtain ⟨hjn, hchar⟩ := mem_positions.mp hj
          exact ⟨hchar, by rw [hchar]; exact hpopf, hjn⟩)
        (pairwise_positions a (charAt a m))
        (by
          intro x
          dsimp only
          by_cases hx : x ∈ positions a (charAt a m)
          · rw [if_pos hx]
          · rw [if_neg hx]
            refine (selfRun_eq_zero ?_).symm
            rintro ⟨h1, h2, h3⟩
            exact hx (mem_positions.mpr ⟨h3, h1⟩))
        ihdiag ihsum
        (by
          intro j hj hjm
          dsimp only
          calc selfRun a m j ≤ selfRun a j j := selfRun_le_diag_left a j m (le_of_lt hjm)
            _ ≤ st.2.size := ihdom j j hjm)
        (Or.inl hmem)
      refine ⟨?_, hres.2.1, hres.2.2.1, ?_⟩
      · intro x
        rw [if_neg (Nat.succ_ne_zero m), Nat.add_sub_cancel]
        exact hres.1 x
      · intro i' j hi'
        rcases Nat.lt_succ_iff_lt_or_eq.mp hi' with h | h
        · calc selfRun a i' j ≤ st.2.size := ihdom i' j h
            _ ≤ _ := hres.2.2.2.1
        · subst h
          by_cases hj : j ∈ positions a (charAt a i')
          · exact hres.2.2.2.2 j hj
          · rw [selfRun_eq_zero (by
              rintro ⟨h1, h2, h3⟩
              exact hj (mem_positions.mpr ⟨h3, h1⟩))]
            omega

/-- On identical strings a diagonal block extends leftwards all the way to
the start. -/
theorem extendLeft_diag (a : Str) : ∀ (d s : Nat),
    extendLeft a a 0 0 ⟨d, d, s⟩ = ⟨0, 0, d + s⟩ := by
  intro d
  induction d with
  | zero =>
    intro s
    rw [extendLeft_noop _ _ _ _ _ (by rintro ⟨h1, -, -⟩; exact absurd h1 (lt_irrefl 0))]
    rw [Nat.zero_add]
  | succ d' ih =>
    intro s
    rw [extendLeft, if_pos ⟨Nat.succ_pos d', Nat.succ_pos d', rfl⟩]
    rw [show (⟨d' + 1 - 1, d' + 1 - 1, s + 1⟩ : Best) = ⟨d', d', s + 1⟩ from by
      simp]
    rw [ih (s + 1)]
    congr 1
    omega

/-- On identical strings a diagonal block anchored at the start extends
rightwards to the whole string. -/
theorem extendRight_diag (a : Str) : ∀ (k t : Nat), a.length - t ≤ k → t ≤ a.length →
    extendRight a a a.length a.length ⟨0, 0, t⟩ = ⟨0, 0, a.length⟩ := by
  intro k
  induction k with
  | zero =>
    intro t h1 h2
    have : t = a.length := by omega
    subst this
    rw [extendRight_noop _ _ _ _ _ (by rintro ⟨hc, -, -⟩; dsimp only at hc; omega)]
  | succ k' ih =>
    intro t h1 h2
    by_cases ht : t = a.length
    · subst ht
      rw [extendRight_noop _ _ _ _ _ (by rintro ⟨hc, -, -⟩; dsimp only at hc; omega)]
    · rw [extendRight, if_pos ⟨by dsimp only; omega, by dsimp only; omega, rfl⟩]
      exact ih (t + 1) (by omega) (by omega)

/-- `find_longest_match` finds the whole string when matching `a` against
itself. -/
theorem flm_self (a : Str) :
    findLongestMatch a a 0 a.length 0 a.length = ⟨0, 0, a.length⟩ := by
  obtain ⟨-, hdiag, hsum, -⟩ := foldOuter_diag a a.length (Nat.le_refl _)
  rw [findLongestMatch, Nat.sub_zero, ← List.range_eq_range']
  rcases hB : ((List.range a.length).foldl (outerStep a a 0 a.length)
      ((fun _ => 0), ⟨0, 0, 0⟩)).2 with ⟨i0, j0, s0⟩
  rw [hB] at hdiag hsum
  dsimp only at hdiag hsum
  subst hdiag
  rw [extendLeft_diag a]
  exact extendRight_diag a a.length _ (by omega) (by omega)

/-- Matching `a` against itself matches everything. -/
theorem totalMatched_self (a : Str) : totalMatched a a = a.length := by
  unfold totalMatched
  rw [matchingBlocks]
  by_cases h : a.length = 0
  · rw [dif_pos (by rw [flm_self]; exact h)]
    simp [h]
  · rw [dif_neg (by rw [flm_self]; exact h)]
    rw [if_neg (by rw [flm_self]; rintro ⟨h1, -⟩; exact absurd h1 (lt_irrefl 0))]
    rw [if_neg (by rw [flm_self]; rintro ⟨h1, -⟩; simp at h1)]
    rw [flm_self]
    simp

/-- `ratio` of a string with itself is `1` — including long strings where
the autojunk heuristic purges popular characters, because the best block is
always diagonal and the non-junk extension loops then recover the whole
string. -/
theorem ratio_self (a : Str) : ratio a a = 1 := by
  unfold ratio
  split_ifs with h
  · rfl
  · rw [totalMatched_self]
    have hpos : (0 : ℚ) < (a.length : ℚ) + (a.length : ℚ) := by
      have : a.length ≠ 0 := by omega
      have h1 : 0 < a.length := Nat.pos_of_ne_zero this
      push_cast
      exact_mod_cast by omega
    rw [div_eq_one_iff_eq (ne_of_gt hpos)]
    push_cast
    ring

/-- `normalize_text` unfolded on non-empty input. -/
theorem normalize_text_ne (t : Str) (h : t ≠ []) :
    normalize_text t = pyStrip (pyLower (joinSp (pySplit (removePunct t)))) := by
  rw [normalize_text, if_neg h]

/-- A non-empty normalized string has at least one whitespace token. -/
theorem pySplit_normalize_ne_nil {t : Str} (h : normalize_text t ≠ []) :
    pySplit (normalize_text t) ≠ [] := by
  have ht : t ≠ [] := by
    intro hc
    subst hc
    exact h rfl
  rw [normalize_text_ne t ht] at h ⊢
  exact pySplit_ne_nil (pyStrip_has_nonspace h)

/-- One summand of the heuristic blend is never above `1`. -/
theorem combined_le_one (nu nc : Str) :
    (6/10 : ℚ) * sequence_similarity nu nc + (4/10 : ℚ) * token_overlap nu nc ≤ 1 := by
  have h1 := ratio_le_one nu nc
  have h2 := token_overlap_le_one nu nc
  unfold sequence_similarity
  nlinarith

/-- The heuristic score is bounded by `1`. -/
theorem heuristic_score_le_one (ua : Str) (cas : List Str) :
    heuristic_score ua cas ≤ 1 := by
  unfold heuristic_score
  exact foldl_max_le _ 1 cas 0 (by norm_num) (fun c _ => combined_le_one _ _)

/-- An answer whose (non-empty) normalization equals the normalization of
some expected answer scores exactly `1.0`. -/
theorem heuristic_score_eq_one {ua : Str} {cas : List Str}
    (h1 : normalize_text ua ≠ [])
    (h2 : ∃ c ∈ cas, normalize_text c = normalize_text ua) :
    heuristic_score ua cas = 1 := by
  refine le_antisymm (heuristic_score_le_one ua cas) ?_
  obtain ⟨c, hc, hceq⟩ := h2
  unfold heuristic_score
  have := foldl_max_of_mem
    (fun correct => (6/10 : ℚ) * sequence_similarity (normalize_text ua) (normalize_text correct) +
      (4/10 : ℚ) * token_overlap (normalize_text ua) (normalize_text correct)) cas 0 c hc
  refine le_trans (le_of_eq ?_) this
  dsimp only
  rw [hceq]
  unfold sequence_similarity
  rw [ratio_self, token_overlap_self (pySplit_normalize_ne_nil h1)]
  norm_num

/-- An answer normalizing to the empty string scores exactly `0.6` against
any expected list in which some answer also normalizes to empty: the
sequence part compares two empty strings (`ratio = 1.0` by the `T = 0`
rule) while the token part is `0.0`. -/
theorem heuristic_score_empty_norm {ua : Str} {cas : List Str}
    (h1 : normalize_text ua = [])
    (h2 : ∃ c ∈ cas, normalize_text c = []) :
    heuristic_score ua cas = 3/5 := by
  unfold heuristic_score
  rw [h1]
  refine le_antisymm ?_ ?_
  · refine foldl_max_le _ (3/5) cas 0 (by norm_num) ?_
    intro c _
    by_cases hc : normalize_text c = []
    · rw [hc]
      unfold sequence_similarity
      rw [ratio_self, token_overlap_nil_left]
      norm_num
    · unfold sequence_similarity
      rw [ratio_nil_left (by
          intro hl
          exact hc (List.length_eq_zero.mp hl)),
        token_overlap_nil_left]
      norm_num
  · obtain ⟨c, hc, hceq⟩ := h2
    have := foldl_max_of_mem
      (fun correct => (6/10 : ℚ) * sequence_similarity ([] : Str) (normalize_text correct) +
        (4/10 : ℚ) * token_overlap ([] : Str) (normalize_text correct)) cas 0 c hc
    refine le_trans (le_of_eq ?_) this
    dsimp only
    rw [hceq]
    unfold sequence_similarity
    rw [ratio_self, token_overlap_nil_left]
    norm_num

/-! ## Substring predicate (for the feedback-template claims) -/

/-- `pat` occurs as a contiguous segment of `s`. -/
def containsSeg (pat s : Str) : Prop := ∃ l r : Str, s = l ++ pat ++ r

/-- Executable segment search. -/
def hasSeg (pat s : Str) : Bool :=
  (List.range (s.length + 1)).any (fun i => ((s.drop i).take pat.length) = pat)

/-- `hasSeg` decides `containsSeg`. -/
theorem hasSeg_iff (pat s : Str) : hasSeg pat s = true ↔ containsSeg pat s := by
  unfold hasSeg containsSeg
  rw [List.any_eq_true]
  constructor
  · rintro ⟨i, -, hi⟩
    simp only [decide_eq_true_eq] at hi
    have h2 : s.drop i = pat ++ (s.drop i).drop pat.length := by
      conv_lhs => rw [← List.take_append_drop pat.length (s.drop i)]
      rw [hi]
    refine ⟨s.take i, (s.drop i).drop pat.length, ?_⟩
    conv_lhs => rw [← List.take_append_drop i s]
    rw [List.append_assoc, ← h2]
  · rintro ⟨l, r, rfl⟩
    refine ⟨l.length, ?_, ?_⟩
    · rw [List.mem_range]
      simp
      omega
    · simp only [decide_eq_true_eq]
      rw [List.append_assoc, List.drop_left, List.take_left]

instance containsSeg.dec (pat s : Str) : Decidable (containsSeg pat s) :=
  decidable_of_iff (hasSeg pat s = true) (hasSeg_iff pat s)

/-! ## The backward-compatibility wrappers

`evaluation_pipeline.py` defines `evaluate_answer` twice in the body of
`EvaluationPipeline`: the async three-stage orchestrator (line 236) and a
synchronous wrapper (line 362).  Python executes a class body top to
bottom, so the second `def` replaces the first in the class namespace and
`self.evaluate_answer` resolves to the synchronous wrapper.
`evaluate_answer_async` (line 308) therefore calls the synchronous wrapper
with the keyword arguments listed below; binding them against the
wrapper's parameters raises `TypeError` (`lesson_type` and `chat_history`
are not parameters), and the `except` block prints and re-raises. -/

/-- Parameter names of the surviving `def evaluate_answer` (line 362). -/
def sync_evaluate_answer_params : List Str :=
  [str "user_answer", str "correct_answers_list", str "question_text", str "character_id"]

/-- Keywords of the call `self.evaluate_answer(...)` at lines 329-336. -/
def async_wrapper_call_kwargs : List Str :=
  [str "user_answer", str "correct_answers_list", str "question_text",
   str "lesson_type", str "character_id", str "chat_history"]

/-- Python keyword binding: the first keyword that is not a parameter name
raises `TypeError`. -/
def bindCall (params kwargs : List Str) : Except Str Unit :=
  match kwargs.find? (fun kw => !(params.contains kw)) with
  | some kw => Except.error (str "TypeError: unexpected keyword argument " ++ kw)
  | none => Except.ok ()

/-- `EvaluationPipeline.evaluate_answer_async` (lines 308-360).  The
success branch of the keyword binding — which would run the body of the
synchronous wrapper — is filled with the delegation to the three-stage
orchestrator that the call was written for; it is unreachable because
`lesson_type` is not a parameter of the surviving `evaluate_answer`
(see `evaluate_answer_async_raises`). -/
def evaluate_answer_async (character : Option Persona) (outcome : AIOutcome)
    (user_answer : Str) (correct_answers_list : List Str) (question_text : Str)
    (conversation_history : List (Str × Str)) (lesson_type : Option Str) :
    Except Str (EvaluationResult × Bool) :=
  match bindCall sync_evaluate_answer_params async_wrapper_call_kwargs with
  | Except.error e => Except.error e
  | Except.ok _ =>
    Except.ok (evaluate_answer character outcome user_answer correct_answers_list
      question_text (lesson_type.getD (str "text")))

/-! ## `SimplifiedLessonService.validate_answer` (answer-validation slice)

The slice from the resolved lesson step onward
(`simplified_lesson_service.py` lines 132-205): lesson/step lookup,
conversation-history bookkeeping and the emotion tag are plumbing owned by
the caller and are not modelled; the collaborator `generate_ai_feedback`
is modelled by its returned text. -/

/-- The result dictionary of `validate_answer` (the fields the claims are
about). -/
structure ValidateResult where
  valid : Bool
  advance : Bool
  feedback : Str
deriving DecidableEq

/-- `re.search(r'"([^"]+)"', s)`, returning the first capture: the leftmost
position where a quote is followed by one or more non-quote characters and
a closing quote. -/
def extractQuoted (l : Str) : Option Str :=
  match hd : l.dropWhile (fun c => !(c = '"')) with
  | [] => none
  | _ :: rest =>
    let tok := rest.takeWhile (fun c => !(c = '"'))
    if tok ≠ [] ∧ rest.dropWhile (fun c => !(c = '"')) ≠ [] then some tok
    else extractQuoted rest
termination_by l.length
decreasing_by
  have hsub : (l.dropWhile (fun c => !(c = '"'))).Sublist l := List.dropWhile_sublist _
  rw [hd] at hsub
  have := hsub.length_le
  simp only [List.length_cons] at this
  omega

/-- `SimplifiedLessonService.validate_answer` from the step fields onward.
`aiFeedbackText` is the text produced by the `generate_ai_feedback`
collaborator on this input. -/
def validate_answer_step (user_answer : Str) (lesson_type : Str)
    (correctAnswers : List Str) (characterMessageRoman : Str)
    (aiFeedbackText : Str) (character : Option Persona) (outcome : AIOutcome)
    (question_text : Str) : Except Str ValidateResult :=
  if pyStrip user_answer = [] then
    Except.ok ⟨false, false, []⟩
  else
    let correct_answers :=
      if (lesson_type = str "text" ∨ lesson_type = str "text-input") ∧ correctAnswers = [] then
        match extractQuoted characterMessageRoman with
        | some expected => [expected]
        | none => correctAnswers
      else correctAnswers
    if correct_answers = [] then
      Except.ok ⟨true, true, aiFeedbackText⟩
    else
      match evaluate_answer_async character outcome user_answer correct_answers
        question_text [] (some lesson_type) with
      | Except.error e => Except.error e
      | Except.ok r => Except.ok ⟨true, r.1.advance, r.1.feedback⟩

/-! ## Idempotence of `normalize_text` on the modelled character domain -/

/-- The character domain on which the Unicode tables of the model are
complete: ASCII and the U+0A80–U+0AFF block kept by the regex. -/
def asciiOrBlock (c : Char) : Prop :=
  c.toNat < 128 ∨ (0xA80 ≤ c.toNat ∧ c.toNat ≤ 0xAFF)

instance asciiOrBlock.dec (c : Char) : Decidable (asciiOrBlock c) :=
  inferInstanceAs (Decidable (_ ∨ _))

/-- `Char.ofNat` round-trips on code points below the surrogate range. -/
theorem char_toNat_ofNat {n : Nat} (h : n < 0xD800) : (Char.ofNat n).toNat = n := by
  unfold Char.ofNat
  rw [dif_pos (Or.inl h)]
  show (UInt32.ofNat' n _).toNat = n
  simp [UInt32.ofNat', UInt32.toNat, Char.toNat]

/-- Characters are equal iff their code points are. -/
theorem char_eq_iff_toNat {c d : Char} : c = d ↔ c.toNat = d.toNat := by
  constructor
  · intro h; rw [h]
  · intro h
    have := congrArg Char.ofNat h
    rwa [Char.ofNat_toNat, Char.ofNat_toNat] at this

/-- Character order is code-point order. -/
theorem char_le_iff_toNat {c d : Char} : c ≤ d ↔ c.toNat ≤ d.toNat := by
  rw [Char.le_def]
  exact Iff.rfl

/-- `pyIsSpace` as a code-point condition. -/
theorem pyIsSpace_iff (c : Char) : pyIsSpace c = true ↔
    (c.toNat = 32 ∨ c.toNat = 9 ∨ c.toNat = 10 ∨ c.toNat = 11 ∨ c.toNat = 12 ∨ c.toNat = 13) := by
  unfold pyIsSpace
  simp only [Bool.or_eq_true, decide_eq_true_eq, char_eq_iff_toNat]
  show ((((c.toNat = 32 ∨ c.toNat = 9) ∨ c.toNat = 10) ∨ c.toNat = 11) ∨ c.toNat = 12) ∨
    c.toNat = 13 ↔ _
  omega

/-- `UInt32`-level comparison against a character value, in code points. -/
theorem val_le_iff {c : Char} {u : UInt32} : (u ≤ c.val) ↔ u.toNat ≤ c.toNat := by
  rw [UInt32.le_def, BitVec.le_def]
  exact Iff.rfl

/-- `UInt32`-level comparison against a character value, in code points. -/
theorem le_val_iff {c : Char} {u : UInt32} : (c.val ≤ u) ↔ c.toNat ≤ u.toNat := by
  rw [UInt32.le_def, BitVec.le_def]
  exact Iff.rfl

/-- `keepChar` as a code-point condition. -/
theorem keepChar_iff (c : Char) : keepChar c = true ↔
    ((48 ≤ c.toNat ∧ c.toNat ≤ 57) ∨ (65 ≤ c.toNat ∧ c.toNat ≤ 90) ∨
     (97 ≤ c.toNat ∧ c.toNat ≤ 122) ∨ c.toNat = 95 ∨ c.toNat = 0x130 ∨
     (c.toNat = 32 ∨ c.toNat = 9 ∨ c.toNat = 10 ∨ c.toNat = 11 ∨ c.toNat = 12 ∨ c.toNat = 13) ∨
     (0xA80 ≤ c.toNat ∧ c.toNat ≤ 0xAFF)) := by
  unfold keepChar pyIsWordChar Char.isAlphanum Char.isAlpha Char.isDigit Char.isUpper Char.isLower
  simp only [Bool.or_eq_true, Bool.and_eq_true, decide_eq_true_eq, char_eq_iff_toNat,
    ge_iff_le, val_le_iff, le_val_iff, pyIsSpace_iff]
  show (((((65 ≤ c.toNat ∧ c.toNat ≤ 90 ∨ 97 ≤ c.toNat ∧ c.toNat ≤ 122) ∨
        48 ≤ c.toNat ∧ c.toNat ≤ 57) ∨ c.toNat = 95) ∨ c.toNat = 304) ∨
      (c.toNat = 32 ∨ c.toNat = 9 ∨ c.toNat = 10 ∨ c.toNat = 11 ∨ c.toNat = 12 ∨ c.toNat = 13)) ∨
      (2688 ≤ c.toNat ∧ c.toNat ≤ 2815) ↔ _
  omega

/-- Lowercasing a domain character: a single image character, still in the
domain, with the same whitespace status, still kept if the original was
kept, and itself a fixed point of lowercasing. -/
theorem pyCharLower_dom {c : Char} (h : asciiOrBlock c) :
    ∃ d : Char, pyCharLower c = [d] ∧ asciiOrBlock d ∧
      pyIsSpace d = pyIsSpace c ∧ (keepChar c = true → keepChar d = true) ∧
      pyCharLower d = [d] := by
  have h130 : ¬ c.toNat = 0x130 := by
    rcases h with h | h <;> omega
  by_cases hAZ : 'A' ≤ c ∧ c ≤ 'Z'
  · have hAZn : 65 ≤ c.toNat ∧ c.toNat ≤ 90 :=
      ⟨char_le_iff_toNat.mp hAZ.1, char_le_iff_toNat.mp hAZ.2⟩
    refine ⟨Char.ofNat (c.toNat + 32), ?_, ?_, ?_, ?_, ?_⟩
    · unfold pyCharLower
      rw [if_neg h130, if_pos hAZ]
    · left
      rw [char_toNat_ofNat (by omega)]
      omega
    · have hd : (Char.ofNat (c.toNat + 32)).toNat = c.toNat + 32 := char_toNat_ofNat (by omega)
      have h1 : pyIsSpace (Char.ofNat (c.toNat + 32)) = false := by
        rw [← Bool.not_eq_true, pyIsSpace_iff, hd]
        omega
      have h2 : pyIsSpace c = false := by
        rw [← Bool.not_eq_true, pyIsSpace_iff]
        omega
      rw [h1, h2]
    · intro _
      rw [keepChar_iff, char_toNat_ofNat (by omega)]
      omega
    · have hd : (Char.ofNat (c.toNat + 32)).toNat = c.toNat + 32 := char_toNat_ofNat (by omega)
      unfold pyCharLower
      rw [if_neg (by rw [hd]; omega)]
      rw [if_neg (by
        rintro ⟨ha, hb⟩
        rw [char_le_iff_toNat] at hb
        rw [hd] at hb
        have hZ : ('Z').toNat = 90 := rfl
        rw [hZ] at hb
        omega)]
  · exact ⟨c, by unfold pyCharLower; rw [if_neg h130, if_neg hAZ], h, rfl, fun hk => hk, by
      unfold pyCharLower; rw [if_neg h130, if_neg hAZ]⟩

/-- Every token produced by `pySplitAux` is non-empty and consists of
non-whitespace characters drawn from the input (or the pending
accumulator). -/
theorem pySplitAux_chars (P : Char → Prop) :
    ∀ (l acc : Str), (∀ c ∈ l, pyIsSpace c = false → P c) →
    (∀ c ∈ acc, P c ∧ pyIsSpace c = false) →
    ∀ w ∈ pySplitAux l acc, w ≠ [] ∧ ∀ c ∈ w, P c ∧ pyIsSpace c = false := by
  intro l
  induction l with
  | nil =>
    intro acc _ hacc w hw
    rw [pySplitAux] at hw
    split_ifs at hw with hne
    · cases hw
    · rcases List.mem_singleton.mp hw with rfl
      refine ⟨by simpa using hne, ?_⟩
      intro c hc
      exact hacc c (List.mem_reverse.mp hc)
  | cons c rest ih =>
    intro acc hl hacc w hw
    rw [pySplitAux] at hw
    by_cases h1 : pyIsSpace c = true
    · rw [if_pos h1] at hw
      by_cases h2 : acc = []
      · rw [if_pos h2] at hw
        exact ih [] (fun d hd => hl d (List.mem_cons_of_mem _ hd)) (by simp) w hw
      · rw [if_neg h2] at hw
        rcases List.mem_cons.mp hw with rfl | hw'
        · refine ⟨by simpa using h2, ?_⟩
          intro d hd
          exact hacc d (List.mem_reverse.mp hd)
        · exact ih [] (fun d hd => hl d (List.mem_cons_of_mem _ hd)) (by simp) w hw'
    · rw [if_neg h1] at hw
      refine ih (c :: acc) (fun d hd => hl d (List.mem_cons_of_mem _ hd)) ?_ w hw
      intro d hd
      rcases List.mem_cons.mp hd with rfl | hd'
      · exact ⟨hl d (List.mem_cons_self d rest) (by simpa using h1), by simpa using h1⟩
      · exact hacc d hd'

/-- Tokens of `pySplit` are non-empty, whitespace-free, and drawn from the
input. -/
theorem pySplit_chars (l : Str) :
    ∀ w ∈ pySplit l, w ≠ [] ∧ ∀ c ∈ w, c ∈ l ∧ pyIsSpace c = false :=
  pySplitAux_chars (· ∈ l) l [] (fun c hc _ => hc) (by simp)

/-- Consuming a whitespace-free word advances `pySplitAux` into the
accumulator. -/
theorem pySplitAux_word :
    ∀ (w rest acc : Str), (∀ c ∈ w, pyIsSpace c = false) →
    pySplitAux (w ++ rest) acc = pySplitAux rest (w.reverse ++ acc) := by
  intro w
  induction w with
  | nil => intro rest acc _; simp
  | cons c w' ih =>
    intro rest acc hw
    rw [List.cons_append, pySplitAux,
      if_neg (by rw [hw c (List.mem_cons_self c w')]; simp)]
    rw [ih rest (c :: acc) (fun d hd => hw d (List.mem_cons_of_mem _ hd))]
    congr 1
    simp

/-- `pySplit` inverts `joinSp` on lists of non-empty whitespace-free
words. -/
theorem split_join :
    ∀ (ws : List Str), (∀ w ∈ ws, w ≠ [] ∧ ∀ c ∈ w, pyIsSpace c = false) →
    pySplit (joinSp ws) = ws := by
  intro ws
  induction ws with
  | nil => intro _; rfl
  | cons w ws' ih =>
    intro h
    obtain ⟨hwne, hwchars⟩ := h w (List.mem_cons_self w ws')
    match ws' with
    | [] =>
      show pySplitAux (joinSp [w]) [] = [w]
      rw [show joinSp [w] = w from rfl]
      have := pySplitAux_word w [] [] hwchars
      rw [List.append_nil] at this
      rw [this, pySplitAux, if_neg (by simpa using hwne)]
      simp
    | w₂ :: t =>
      show pySplitAux (joinSp (w :: w₂ :: t)) [] = w :: w₂ :: t
      rw [show joinSp (w :: w₂ :: t) = w ++ ' ' :: joinSp (w₂ :: t) from rfl]
      rw [pySplitAux_word w (' ' :: joinSp (w₂ :: t)) [] hwchars]
      rw [pySplitAux, if_pos (by decide), if_neg (by simpa using hwne)]
      simp only [List.append_nil, List.reverse_reverse]
      show w :: pySplit (joinSp (w₂ :: t)) = w :: w₂ :: t
      rw [ih (fun u hu => h u (List.mem_cons_of_mem _ hu))]

/-- `pyLower` distributes over append. -/
theorem pyLower_append (u v : Str) : pyLower (u ++ v) = pyLower u ++ pyLower v := by
  unfold pyLower
  rw [List.flatMap_append]

/-- `pyLower` unfolded on a cons. -/
theorem pyLower_cons (c : Char) (v : Str) :
    pyLower (c :: v) = pyCharLower c ++ pyLower v := rfl

/-- `pyLower` distributes over `joinSp` (a space lowercases to itself). -/
theorem pyLower_joinSp : ∀ (ws : List Str),
    pyLower (joinSp ws) = joinSp (ws.map pyLower) := by
  intro ws
  match ws with
  | [] => rfl
  | [w] => rfl
  | w :: w₂ :: t =>
    rw [show joinSp (w :: w₂ :: t) = w ++ ' ' :: joinSp (w₂ :: t) from rfl]
    rw [pyLower_append, pyLower_cons]
    rw [pyLower_joinSp (w₂ :: t)]
    rw [show (w :: w₂ :: t).map pyLower = pyLower w :: (w₂ :: t).map pyLower from rfl]
    rw [show joinSp (pyLower w :: (w₂ :: t).map pyLower) =
      pyLower w ++ ' ' :: joinSp ((w₂ :: t).map pyLower) from by
        cases t <;> rfl]
    rfl

/-- Characters of `joinSp` come from its words or are separator spaces. -/
theorem mem_joinSp : ∀ (ws : List Str) (c : Char), c ∈ joinSp ws →
    (∃ w ∈ ws, c ∈ w) ∨ c = ' ' := by
  intro ws
  match ws with
  | [] => intro c hc; cases hc
  | [w] => intro c hc; exact Or.inl ⟨w, List.mem_singleton_self w, hc⟩
  | w :: w₂ :: t =>
    intro c hc
    rw [show joinSp (w :: w₂ :: t) = w ++ ' ' :: joinSp (w₂ :: t) from rfl] at hc
    rcases List.mem_append.mp hc with h | h
    · exact Or.inl ⟨w, List.mem_cons_self _ _, h⟩
    · rcases List.mem_cons.mp h with rfl | h'
      · exact Or.inr rfl
      · rcases mem_joinSp (w₂ :: t) c h' with ⟨u, hu, hcu⟩ | h''
        · exact Or.inl ⟨u, List.mem_cons_of_mem _ hu, hcu⟩
        · exact Or.inr h''

/-- `joinSp` of a non-empty list of non-empty words is non-empty. -/
theorem joinSp_ne_nil : ∀ (ws : List Str), ws ≠ [] → (∀ w ∈ ws, w ≠ []) →
    joinSp ws ≠ [] := by
  intro ws
  match ws with
  | [] => intro h _; exact absurd rfl h
  | [w] => intro _ h; exact h w (List.mem_singleton_self w)
  | w :: w₂ :: t =>
    intro _ h
    rw [show joinSp (w :: w₂ :: t) = w ++ ' ' :: joinSp (w₂ :: t) from rfl]
    intro hc
    rcases List.append_eq_nil.mp hc with ⟨-, h2⟩
    cases h2

/-- The reversal of `joinSp` over non-empty whitespace-free words starts
with a non-whitespace character. -/
theorem joinSp_reverse_head : ∀ (ws : List Str), ws ≠ [] →
    (∀ w ∈ ws, w ≠ [] ∧ ∀ c ∈ w, pyIsSpace c = false) →
    ∃ c t, (joinSp ws).reverse = c :: t ∧ pyIsSpace c = false := by
  intro ws
  match ws with
  | [] => intro h _; exact absurd rfl h
  | [w] =>
    intro _ h
    obtain ⟨hne, hch⟩ := h w (List.mem_singleton_self w)
    rcases hrev : w.reverse with _ | ⟨c, t⟩
    · exact absurd (by simpa using hrev) hne
    · refine ⟨c, t, hrev, hch c ?_⟩
      rw [← List.mem_reverse, hrev]
      exact List.mem_cons_self c t
  | w :: w₂ :: t =>
    intro _ h
    obtain ⟨c, t', hrev, hc⟩ := joinSp_reverse_head (w₂ :: t) (by simp)
      (fun u hu => h u (List.mem_cons_of_mem _ hu))
    refine ⟨c, t' ++ ' ' :: w.reverse, ?_, hc⟩
    rw [show joinSp (w :: w₂ :: t) = w ++ ' ' :: joinSp (w₂ :: t) from rfl]
    rw [List.reverse_append, List.reverse_cons, hrev]
    simp

/-- `joinSp` of a cons whose first word is a cons starts with that
word's first character. -/
theorem joinSp_cons_head (c : Char) (w' : Str) (rest : List Str) :
    ∃ X, joinSp ((c :: w') :: rest) = c :: X := by
  cases rest
  · exact ⟨w', rfl⟩
  · exact ⟨w' ++ ' ' :: joinSp _, rfl⟩

/-- Stripping is the identity on `joinSp` of non-empty whitespace-free
words. -/
theorem pyStrip_joinSp (ws : List Str) (hne : ws ≠ [])
    (h : ∀ w ∈ ws, w ≠ [] ∧ ∀ c ∈ w, pyIsSpace c = false) :
    pyStrip (joinSp ws) = joinSp ws := by
  unfold pyStrip
  have hfront : (joinSp ws).dropWhile pyIsSpace = joinSp ws := by
    match ws, hne with
    | w :: rest, _ =>
      obtain ⟨hwne, hwch⟩ := h w (List.mem_cons_self w rest)
      match w, hwne with
      | c :: w', _ =>
        obtain ⟨X, hX⟩ := joinSp_cons_head c w' rest
        rw [hX, List.dropWhile_cons,
          if_neg (by rw [hwch c (List.mem_cons_self c w')]; simp)]
  rw [hfront]
  obtain ⟨c, t', hrev, hc⟩ := joinSp_reverse_head ws hne h
  rw [hrev, List.dropWhile_cons, if_neg (by rw [hc]; simp)]
  rw [← hrev, List.reverse_reverse]

/-- `pyLower` fixes a string all of whose characters lowercase to
themselves. -/
theorem pyLower_fixed : ∀ (u : Str), (∀ c ∈ u, pyCharLower c = [c]) →
    pyLower u = u := by
  intro u
  induction u with
  | nil => intro _; rfl
  | cons c v ih =>
    intro h
    rw [pyLower_cons, h c (List.mem_cons_self c v),
      ih (fun d hd => h d (List.mem_cons_of_mem _ hd))]
    rfl

/-- Lowercasing a word of kept, non-whitespace domain characters yields a
non-empty word of kept, non-whitespace characters that are fixed points of
lowercasing. -/
theorem pyLower_word (w : Str)
    (h : ∀ c ∈ w, asciiOrBlock c ∧ keepChar c = true ∧ pyIsSpace c = false) :
    (w ≠ [] → pyLower w ≠ []) ∧
    (∀ d ∈ pyLower w, keepChar d = true ∧ pyIsSpace d = false ∧ pyCharLower d = [d]) := by
  induction w with
  | nil => exact ⟨fun hc => absurd rfl hc, fun d hd => absurd hd (List.not_mem_nil d)⟩
  | cons c v ih =>
    obtain ⟨hdom, hkeep, hspace⟩ := h c (List.mem_cons_self c v)
    obtain ⟨d, hld, hddom, hdspace, hdkeep, hdfix⟩ := pyCharLower_dom hdom
    obtain ⟨ih1, ih2⟩ := ih (fun e he => h e (List.mem_cons_of_mem _ he))
    rw [pyLower_cons, hld]
    constructor
    · intro _
      simp
    · intro e he
      rcases List.mem_cons.mp (by simpa using he) with rfl | he'
      · exact ⟨hdkeep hkeep, by rw [hdspace, hspace], hdfix⟩
      · exact ih2 e he'

/-- C7 (amended: restricted to ASCII and the U+0A80–U+0AFF block, the
character domain on which the model's Unicode tables are complete):
`normalize_text` is idempotent — a second normalization pass changes
nothing.  Unrestricted idempotence is false; see the `"İ"`
counterexample. -/
theorem normalize_text_idem (t : Str) (hdom : ∀ c ∈ t, asciiOrBlock c) :
    normalize_text (normalize_text t) = normalize_text t := by
  by_cases ht : t = []
  · subst ht; rfl
  rw [normalize_text_ne t ht]
  have hword : ∀ w ∈ pySplit (removePunct t), w ≠ [] ∧
      ∀ c ∈ w, asciiOrBlock c ∧ keepChar c = true ∧ pyIsSpace c = false := by
    intro w hw
    obtain ⟨hne, hch⟩ := pySplit_chars (removePunct t) w hw
    refine ⟨hne, fun c hc => ?_⟩
    obtain ⟨hcin, hcsp⟩ := hch c hc
    have hcK := List.mem_filter.mp hcin
    exact ⟨hdom c hcK.1, hcK.2, hcsp⟩
  rw [pyLower_joinSp]
  set ws' := (pySplit (removePunct t)).map pyLower with hws'
  have hword' : ∀ u ∈ ws', u ≠ [] ∧
      ∀ d ∈ u, keepChar d = true ∧ pyIsSpace d = false ∧ pyCharLower d = [d] := by
    intro u hu
    obtain ⟨w, hwmem, rfl⟩ := List.mem_map.mp hu
    obtain ⟨hne, hch⟩ := hword w hwmem
    have hl := pyLower_word w hch
    exact ⟨hl.1 hne, hl.2⟩
  by_cases hwnil : ws' = []
  · rw [hwnil]
    rfl
  · have hgood : ∀ u ∈ ws', u ≠ [] ∧ ∀ c ∈ u, pyIsSpace c = false :=
      fun u hu => ⟨(hword' u hu).1, fun c hc => ((hword' u hu).2 c hc).2.1⟩
    have hstrip := pyStrip_joinSp ws' hwnil hgood
    rw [hstrip]
    have hNne : joinSp ws' ≠ [] := joinSp_ne_nil ws' hwnil (fun u hu => (hword' u hu).1)
    rw [normalize_text_ne _ hNne]
    have hkeepN : removePunct (joinSp ws') = joinSp ws' := by
      unfold removePunct
      apply List.filter_eq_self.mpr
      intro c hc
      rcases mem_joinSp ws' c hc with ⟨u, hu, hcu⟩ | rfl
      · exact ((hword' u hu).2 c hcu).1
      · decide
    rw [hkeepN]
    rw [split_join ws' hgood]
    rw [pyLower_joinSp]
    have hfix : ws'.map pyLower = ws' := by
      rw [show ws'.map pyLower = ws'.map id from
        List.map_congr_left (fun u hu =>
          pyLower_fixed u (fun d hd => ((hword' u hu).2 d hd).2.2))]
      exact List.map_id ws'
    rw [hfix, hstrip]

/-- The fast-pass branch of the orchestrator. -/
theorem eval_fast_pass (character : Option Persona) (outcome : AIOutcome)
    (ua : Str) (cas : List Str) (qt lt : Str)
    (h1 : pyStrip ua ≠ [])
    (h2 : (get_thresholds lt).auto_pass ≤ heuristic_score ua cas) :
    evaluate_answer character outcome ua cas qt lt =
      (⟨EvaluationState.PERFECT, true,
        polish_feedback EvaluationState.PERFECT true [] character,
        some (heuristic_score ua cas)⟩, false) := by
  unfold evaluate_answer
  rw [if_neg h1, if_pos h2]

/-- The fast-fail branch of the orchestrator. -/
theorem eval_fast_fail (character : Option Persona) (outcome : AIOutcome)
    (ua : Str) (cas : List Str) (qt lt : Str)
    (h1 : pyStrip ua ≠ [])
    (h2 : ¬ (get_thresholds lt).auto_pass ≤ heuristic_score ua cas)
    (h3 : heuristic_score ua cas < (get_thresholds lt).ai_zone_low) :
    evaluate_answer character outcome ua cas qt lt =
      (⟨EvaluationState.WRONG, false,
        polish_feedback EvaluationState.WRONG false [] character,
        some (heuristic_score ua cas)⟩, false) := by
  unfold evaluate_answer
  rw [if_neg h1, if_neg h2, if_pos h3]

/-- The ambiguous-zone branch of the orchestrator. -/
theorem eval_ai_zone (character : Option Persona) (outcome : AIOutcome)
    (ua : Str) (cas : List Str) (qt lt : Str)
    (h1 : pyStrip ua ≠ [])
    (h2 : ¬ (get_thresholds lt).auto_pass ≤ heuristic_score ua cas)
    (h3 : ¬ heuristic_score ua cas < (get_thresholds lt).ai_zone_low) :
    evaluate_answer character outcome ua cas qt lt =
      (⟨(ai_evaluate character outcome).1,
        decide ((ai_evaluate character outcome).1 ∈ (get_thresholds lt).accept_states),
        polish_feedback (ai_evaluate character outcome).1
          (decide ((ai_evaluate character outcome).1 ∈ (get_thresholds lt).accept_states))
          (ai_evaluate character outcome).2 character,
        some (heuristic_score ua cas)⟩, true) := by
  unfold evaluate_answer
  rw [if_neg h1, if_neg h2, if_neg h3]

/-- C9 (amended: except for the advance-with-ACCEPTABLE-and-nonempty-AI-text
branch, whose `"Vadia! ..."` template drops the name): every feedback
template produced by `polish_feedback` contains the persona name. -/
theorem polish_feedback_contains_name (state : EvaluationState) (advance : Bool)
    (ai_feedback : Str) (character : Option Persona)
    (h : ¬(advance = true ∧ state = EvaluationState.ACCEPTABLE ∧ ai_feedback ≠ [])) :
    containsSeg (personaName character) (polish_feedback state advance ai_feedback character) := by
  unfold polish_feedback
  dsimp only
  split_ifs with h1 h2 h3 h4 h5 h6 h7
  · exact absurd ⟨h1.1, h1.2, h2⟩ h
  · exact ⟨[], str ": Shabaash! Sahi jawab. Agge vadh.", by simp⟩
  · exact ⟨[], str ": Bilkul sahi! Shabaash!", by simp⟩
  · exact ⟨[], str ": " ++ ai_feedback ++ str " Thoda aur try kar.", by simp⟩
  · exact ⟨[], str ": Thoda aur sahi banake dubara try karo ji.", by simp⟩
  · exact ⟨[], str ": " ++ ai_feedback, by simp⟩
  · exact ⟨[], str ": Dubara try karo ji.", by simp⟩
  · exact ⟨[], str ": Sahi jawab check karo ji.", by simp⟩

/-- A concrete boundary input: `"a a b"` against `["a b"]` scores exactly
`0.85` (`ratio = 0.75`, token overlap `1.0`). -/
theorem heuristic_aab : heuristic_score (str "a a b") [str "a b"] = 17/20 := by
  unfold heuristic_score
  simp only [List.foldl_cons, List.foldl_nil]
  rw [show normalize_text (str "a a b") = str "a a b" from by decide,
    show normalize_text (str "a b") = str "a b" from by decide]
  unfold sequence_similarity
  rw [show ratio (str "a a b") (str "a b") = 3/4 from by
      unfold ratio
      rw [if_neg (by decide), ← totalMatchedF_eq,
        show totalMatchedF (str "a a b") (str "a b") = 3 from by decide,
        show (str "a a b").length = 5 from rfl, show (str "a b").length = 3 from rfl]
      norm_num,
    show token_overlap (str "a a b") (str "a b") = 1 from by
      unfold token_overlap
      rw [if_neg (by decide),
        show (((pySplit (str "a a b")).toFinset ∩ (pySplit (str "a b")).toFinset).card) = 2 from by decide,
        show (((pySplit (str "a a b")).toFinset ∪ (pySplit (str "a b")).toFinset).card) = 2 from by decide]
      norm_num,
    max_eq_right (by norm_num)]
  norm_num

/-- A concrete boundary input: `"a b"` against `["a"]` scores exactly `0.5`
(`ratio = 0.5`, token overlap `0.5`). -/
theorem heuristic_ab_a : heuristic_score (str "a b") [str "a"] = 1/2 := by
  unfold heuristic_score
  simp only [List.foldl_cons, List.foldl_nil]
  rw [show normalize_text (str "a b") = str "a b" from by decide,
    show normalize_text (str "a") = str "a" from by decide]
  unfold sequence_similarity
  rw [show ratio (str "a b") (str "a") = 1/2 from by
      unfold ratio
      rw [if_neg (by decide), ← totalMatchedF_eq,
        show totalMatchedF (str "a b") (str "a") = 1 from by decide,
        show (str "a b").length = 3 from rfl, show (str "a").length = 1 from rfl]
      norm_num,
    show token_overlap (str "a b") (str "a") = 1/2 from by
      unfold token_overlap
      rw [if_neg (by decide),
        show (((pySplit (str "a b")).toFinset ∩ (pySplit (str "a")).toFinset).card) = 1 from by decide,
        show (((pySplit (str "a b")).toFinset ∪ (pySplit (str "a")).toFinset).card) = 2 from by decide]
      norm_num,
    max_eq_right (by norm_num)]
  norm_num

/-! ## Claim theorems -/

/-- C1: the pipeline entry point `evaluate_answer_async` raises `TypeError`
on every call instead of returning a result — the second `def
evaluate_answer` (sync wrapper, line 362) shadows the async three-stage
orchestrator (line 236), and the wrapper's parameter list rejects the
`lesson_type` keyword the call passes; the `except` block re-raises.  The
claimed behaviour (collaborator failure absorbed as ACCEPTABLE, no
exception escaping) therefore never happens at the entry point. -/
theorem evaluate_answer_async_always_raises :
    ∀ (character : Option Persona) (outcome : AIOutcome) (ua : Str) (cas : List Str)
      (qt : Str) (hist : List (Str × Str)) (lt : Option Str),
    evaluate_answer_async character outcome ua cas qt hist lt =
      Except.error (str "TypeError: unexpected keyword argument " ++ str "lesson_type") := by
  intro character outcome ua cas qt hist lt
  rfl

/-- C2: for every non-whitespace answer, the orchestrator's `advance` is
true exactly when the resulting state is in the threshold table's
`accept_states` for the lesson type. -/
theorem advance_iff_accept_state :
    ∀ (character : Option Persona) (outcome : AIOutcome) (ua : Str) (cas : List Str)
      (qt lt : Str), pyStrip ua ≠ [] →
    ((evaluate_answer character outcome ua cas qt lt).1.advance = true ↔
     (evaluate_answer character outcome ua cas qt lt).1.state ∈
       (get_thresholds lt).accept_states) := by
  intro character outcome ua cas qt lt h1
  by_cases h2 : (get_thresholds lt).auto_pass ≤ heuristic_score ua cas
  · rw [eval_fast_pass character outcome ua cas qt lt h1 h2]
    exact iff_of_true rfl (get_thresholds_facts lt).2.2.2.1
  · by_cases h3 : heuristic_score ua cas < (get_thresholds lt).ai_zone_low
    · rw [eval_fast_fail character outcome ua cas qt lt h1 h2 h3]
      exact iff_of_false (by simp) (get_thresholds_facts lt).2.2.2.2.1
    · rw [eval_ai_zone character outcome ua cas qt lt h1 h2 h3]
      exact decide_eq_true_iff

/-- Witness for C2 at a concrete fast-pass input. -/
theorem advance_iff_accept_state_witness :
    (evaluate_answer none AIOutcome.failure (str "hello") [str "hello"] []
        (str "text")).1.advance = true ↔
    (evaluate_answer none AIOutcome.failure (str "hello") [str "hello"] []
        (str "text")).1.state ∈ (get_thresholds (str "text")).accept_states :=
  advance_iff_accept_state none AIOutcome.failure (str "hello") [str "hello"] []
    (str "text") (by decide)

/-- C3 counterexample: the punctuation-only answer `"!"` is non-empty and
normalizes to the same (empty) string as the expected answer `"?"`, yet
the heuristic score is `0.6`, not `1.0`, the completion collaborator is
invoked, and the state is not PERFECT. -/
theorem normalized_match_counterexample :
    pyStrip (str "!") ≠ [] ∧
    normalize_text (str "!") = normalize_text (str "?") ∧
    heuristic_score (str "!") [str "?"] ≠ 1 ∧
    (evaluate_answer none AIOutcome.failure (str "!") [str "?"] [] (str "text")).2 = true ∧
    (evaluate_answer none AIOutcome.failure (str "!") [str "?"] []
      (str "text")).1.state ≠ EvaluationState.PERFECT := by
  have hs : heuristic_score (str "!") [str "?"] = 3/5 :=
    heuristic_score_empty_norm (by decide) (by decide)
  have hf := get_thresholds_facts (str "text")
  have he := eval_ai_zone none AIOutcome.failure (str "!") [str "?"] [] (str "text")
    (by decide)
    (by rw [hs]; exact not_le.mpr hf.2.2.2.2.2.2)
    (by rw [hs]; exact not_lt.mpr (le_of_lt hf.2.2.2.2.2.1))
  refine ⟨by decide, by decide, ?_, ?_, ?_⟩
  · rw [hs]; norm_num
  · rw [he]
  · rw [he]; decide

/-- C3 (amended: the shared normalization must also be non-empty): an
answer whose non-empty normalization equals a normalized expected answer
scores exactly `1.0` and fast-passes to PERFECT/advance without any
completion call. -/
theorem normalized_nonempty_match_fast_pass :
    ∀ (character : Option Persona) (outcome : AIOutcome) (ua : Str) (cas : List Str)
      (qt lt : Str),
    pyStrip ua ≠ [] → normalize_text ua ≠ [] →
    (∃ c ∈ cas, normalize_text c = normalize_text ua) →
    heuristic_score ua cas = 1 ∧
    evaluate_answer character outcome ua cas qt lt =
      (⟨EvaluationState.PERFECT, true,
        polish_feedback EvaluationState.PERFECT true [] character, some 1⟩, false) := by
  intro character outcome ua cas qt lt h1 h2 h3
  have hs : heuristic_score ua cas = 1 := heuristic_score_eq_one h2 h3
  refine ⟨hs, ?_⟩
  rw [eval_fast_pass character outcome ua cas qt lt h1
    (by rw [hs]; exact (get_thresholds_facts lt).2.2.1), hs]

/-- Witness for the amended C3. -/
theorem normalized_nonempty_match_fast_pass_witness :
    heuristic_score (str "Sat Sri Akal") [str "Sat Sri Akal"] = 1 ∧
    evaluate_answer none AIOutcome.failure (str "Sat Sri Akal") [str "Sat Sri Akal"] []
        (str "text") =
      (⟨EvaluationState.PERFECT, true,
        polish_feedback EvaluationState.PERFECT true [] none, some 1⟩, false) :=
  normalized_nonempty_match_fast_pass none AIOutcome.failure (str "Sat Sri Akal")
    [str "Sat Sri Akal"] [] (str "text") (by decide) (by decide) (by decide)

/-- C4: `get_thresholds` is the exact fixed table of the specification,
with every unknown lesson type mapped to the conservative defaults. -/
theorem get_thresholds_table :
    get_thresholds (str "mcq") = ⟨95/100, 50/100, [EvaluationState.PERFECT]⟩ ∧
    get_thresholds (str "text") =
      ⟨90/100, 40/100, [EvaluationState.PERFECT, EvaluationState.ACCEPTABLE]⟩ ∧
    get_thresholds (str "translation") =
      ⟨88/100, 35/100, [EvaluationState.PERFECT, EvaluationState.ACCEPTABLE]⟩ ∧
    ∀ lt : Str, lt ≠ str "mcq" → lt ≠ str "text" → lt ≠ str "translation" →
      get_thresholds lt =
        ⟨85/100, 45/100, [EvaluationState.PERFECT, EvaluationState.ACCEPTABLE]⟩ := by
  refine ⟨rfl, rfl, rfl, ?_⟩
  intro lt h1 h2 h3
  unfold get_thresholds
  rw [if_neg h1, if_neg h2, if_neg h3]

/-- Witness for C4's default row at a lesson type outside the table. -/
theorem get_thresholds_table_witness :
    get_thresholds (str "conversation") =
      ⟨85/100, 45/100, [EvaluationState.PERFECT, EvaluationState.ACCEPTABLE]⟩ :=
  get_thresholds_table.2.2.2 (str "conversation") (by decide) (by decide) (by decide)

/-- C5: a heuristic score exactly at `auto_pass` fast-passes to PERFECT
with no completion call, and a score exactly at `ai_zone_low` is not a
fast fail — it enters the ambiguous-zone AI path. -/
theorem threshold_boundary_inclusions :
    ∀ (character : Option Persona) (outcome : AIOutcome) (ua : Str) (cas : List Str)
      (qt lt : Str), pyStrip ua ≠ [] →
    (heuristic_score ua cas = (get_thresholds lt).auto_pass →
      evaluate_answer character outcome ua cas qt lt =
        (⟨EvaluationState.PERFECT, true,
          polish_feedback EvaluationState.PERFECT true [] character,
          some (heuristic_score ua cas)⟩, false)) ∧
    (heuristic_score ua cas = (get_thresholds lt).ai_zone_low →
      (evaluate_answer character outcome ua cas qt lt).2 = true) := by
  intro character outcome ua cas qt lt h1
  constructor
  · intro h2
    rw [eval_fast_pass character outcome ua cas qt lt h1 (le_of_eq h2.symm)]
  · intro h2
    rw [eval_ai_zone character outcome ua cas qt lt h1
      (by rw [h2]; exact not_le.mpr (get_thresholds_facts lt).2.1)
      (by rw [h2]; exact lt_irrefl _)]

/-- Witness for C5: `"a a b"` vs `["a b"]` scores exactly `0.85`, the
default `auto_pass`; `"a b"` vs `["a"]` scores exactly `0.5`, the mcq
`ai_zone_low`. -/
theorem threshold_boundary_inclusions_witness :
    evaluate_answer none AIOutcome.failure (str "a a b") [str "a b"] [] (str "quiz") =
      (⟨EvaluationState.PERFECT, true,
        polish_feedback EvaluationState.PERFECT true [] none,
        some (heuristic_score (str "a a b") [str "a b"])⟩, false) ∧
    (evaluate_answer none AIOutcome.failure (str "a b") [str "a"] [] (str "mcq")).2 = true :=
  ⟨(threshold_boundary_inclusions none AIOutcome.failure (str "a a b") [str "a b"] []
      (str "quiz") (by decide)).1
      (by rw [heuristic_aab, show (get_thresholds (str "quiz")).auto_pass = 85/100 from rfl]
          norm_num),
   (threshold_boundary_inclusions none AIOutcome.failure (str "a b") [str "a"] []
      (str "mcq") (by decide)).2
      (by rw [heuristic_ab_a, show (get_thresholds (str "mcq")).ai_zone_low = 50/100 from rfl]
          norm_num)⟩

/-- C6: an empty or whitespace-only answer is rejected immediately: WRONG,
no advance, the fixed empty-answer feedback, no confidence recorded and no
completion call. -/
theorem empty_answer_rejected :
    ∀ (character : Option Persona) (outcome : AIOutcome) (ua : Str) (cas : List Str)
      (qt lt : Str), pyStrip ua = [] →
    evaluate_answer character outcome ua cas qt lt =
      (⟨EvaluationState.WRONG, false, str "Jawab likho ji.", none⟩, false) := by
  intro character outcome ua cas qt lt h
  unfold evaluate_answer
  rw [if_pos h]

/-- Witness for C6 at a whitespace-only answer. -/
theorem empty_answer_rejected_witness :
    evaluate_answer none AIOutcome.failure (str "   ") [str "x"] [] (str "text") =
      (⟨EvaluationState.WRONG, false, str "Jawab likho ji.", none⟩, false) :=
  empty_answer_rejected none AIOutcome.failure (str "   ") [str "x"] [] (str "text")
    (by decide)

/-- C7 counterexample: on the letter `İ` (U+0130), whose Python `lower()`
is the two-character string `i` + U+0307, a second normalization pass
strips the combining dot (it is not a word character, not whitespace, and
outside U+0A80–U+0AFF), so `normalize_text` is not idempotent on arbitrary
Unicode input. -/
theorem normalize_text_not_idempotent :
    normalize_text (normalize_text (str "İ")) ≠ normalize_text (str "İ") := by
  decide

/-- Witness for the amended C7 at a concrete in-domain input. -/
theorem normalize_text_idem_witness :
    normalize_text (normalize_text (str "SAT  Sri!")) = normalize_text (str "SAT  Sri!") :=
  normalize_text_idem (str "SAT  Sri!") (by decide)

/-- C8: for a non-empty answer, when the step has no `correctAnswers` and
the quoted-text extraction does not apply (either the lesson type is not a
text type, or the character message contains no quoted span), the service
accepts the open-ended answer: valid, advance, with the collaborator's
feedback text. -/
theorem empty_expected_open_ended :
    ∀ (ua lt cams ai qt : Str) (character : Option Persona) (outcome : AIOutcome),
    pyStrip ua ≠ [] →
    (¬(lt = str "text" ∨ lt = str "text-input") ∨ extractQuoted cams = none) →
    validate_answer_step ua lt [] cams ai character outcome qt =
      Except.ok ⟨true, true, ai⟩ := by
  intro ua lt cams ai qt character outcome h1 h2
  unfold validate_answer_step
  rw [if_neg h1]
  rcases h2 with h2 | h2
  · rw [if_neg (show ¬((lt = str "text" ∨ lt = str "text-input") ∧ ([] : List Str) = []) from
      fun hc => h2 hc.1)]
    rw [if_pos rfl]
  · by_cases hc : (lt = str "text" ∨ lt = str "text-input") ∧ ([] : List Str) = []
    · rw [if_pos (show (lt = str "text" ∨ lt = str "text-input") ∧ ([] : List Str) = [] from hc),
        h2]
      rw [if_pos rfl]
    · rw [if_neg (show ¬((lt = str "text" ∨ lt = str "text-input") ∧ ([] : List Str) = []) from
        hc)]
      rw [if_pos rfl]

/-- Witness for C8 at a concrete non-text step with no expected answers. -/
theorem empty_expected_open_ended_witness :
    validate_answer_step (str "hi") (str "mcq") [] (str "say hello") (str "Shabaash!")
        none AIOutcome.failure (str "q") = Except.ok ⟨true, true, str "Shabaash!"⟩ :=
  empty_expected_open_ended (str "hi") (str "mcq") (str "say hello") (str "Shabaash!")
    (str "q") none AIOutcome.failure (by decide) (Or.inl (by decide))

/-- C9 counterexample: an ambiguous-zone answer that the collaborator
classifies ACCEPTABLE with non-empty feedback produces the `"Vadia! ..."`
template, which does not contain the persona name (`"Baba"` here). -/
theorem feedback_missing_persona_name :
    (evaluate_answer (some ⟨some (str "Baba")⟩)
        (AIOutcome.ok (str "ACCEPTABLE\nChanga jawab.")) (str "a b") [str "a"] []
        (str "text")).1.feedback =
      str "Vadia! Changa jawab. Agge vadh, bas eh gall yaad rakh..." ∧
    ¬ containsSeg (personaName (some ⟨some (str "Baba")⟩))
      ((evaluate_answer (some ⟨some (str "Baba")⟩)
        (AIOutcome.ok (str "ACCEPTABLE\nChanga jawab.")) (str "a b") [str "a"] []
        (str "text")).1.feedback) := by
  have hf := get_thresholds_facts (str "text")
  have he := eval_ai_zone (some ⟨some (str "Baba")⟩)
    (AIOutcome.ok (str "ACCEPTABLE\nChanga jawab.")) (str "a b") [str "a"] [] (str "text")
    (by decide)
    (by rw [heuristic_ab_a, show (get_thresholds (str "text")).auto_pass = 90/100 from rfl]
        norm_num)
    (by rw [heuristic_ab_a, show (get_thresholds (str "text")).ai_zone_low = 40/100 from rfl]
        norm_num)
  refine ⟨?_, ?_⟩
  · rw [he]
    decide
  · rw [he]
    decide

/-- Witness for the amended C9 at a concrete branch (PERFECT, advance). -/
theorem polish_feedback_contains_name_witness :
    containsSeg (personaName none)
      (polish_feedback EvaluationState.PERFECT true [] none) :=
  polish_feedback_contains_name EvaluationState.PERFECT true [] none (by decide)

/-- C10: a punctuation-only answer (non-empty after `strip`, empty after
normalization) against an expected list containing an answer that also
normalizes to empty scores exactly `0.6` — the sequence part compares two
empty strings (`ratio = 1` by the `T = 0` rule) and the token part is `0` —
which lies strictly inside the ambiguous zone for every lesson type, so the
completion collaborator is always consulted. -/
theorem punctuation_only_ambiguous_zone :
    ∀ (character : Option Persona) (outcome : AIOutcome) (ua : Str) (cas : List Str)
      (qt lt : Str),
    pyStrip ua ≠ [] → normalize_text ua = [] → (∃ c ∈ cas, normalize_text c = []) →
    sequence_similarity [] [] = 1 ∧ token_overlap [] [] = 0 ∧
    heuristic_score ua cas = 3/5 ∧
    (get_thresholds lt).ai_zone_low < 3/5 ∧ (3/5 : ℚ) < (get_thresholds lt).auto_pass ∧
    (evaluate_answer character outcome ua cas qt lt).2 = true := by
  intro character outcome ua cas qt lt h1 h2 h3
  have hs := heuristic_score_empty_norm h2 h3
  have hf := get_thresholds_facts lt
  refine ⟨ratio_self [], token_overlap_nil_left [], hs,
    hf.2.2.2.2.2.1, hf.2.2.2.2.2.2, ?_⟩
  rw [eval_ai_zone character outcome ua cas qt lt h1
    (by rw [hs]; exact not_le.mpr hf.2.2.2.2.2.2)
    (by rw [hs]; exact not_lt.mpr (le_of_lt hf.2.2.2.2.2.1))]

/-- Witness for C10 at the punctuation-only answer `"!"`. -/
theorem punctuation_only_ambiguous_zone_witness :
    sequence_similarity [] [] = 1 ∧ token_overlap [] [] = 0 ∧
    heuristic_score (str "!") [str "?"] = 3/5 ∧
    (get_thresholds (str "mcq")).ai_zone_low < 3/5 ∧
    (3/5 : ℚ) < (get_thresholds (str "mcq")).auto_pass ∧
    (evaluate_answer none AIOutcome.unavailable (str "!") [str "?"] [] (str "mcq")).2 = true :=
  punctuation_only_ambiguous_zone none AIOutcome.unavailable (str "!") [str "?"] []
    (str "mcq") (by decide) (by decide) (by decide)
